import Mathlib

/-!
Verification of the change-watcher specification of this repository
(`state/watcher`).  The watcher implementation itself
(`state/watcher/watcher.go`) is not present under `src/`; only its test
suite (`src/state/watcher/watcher_test.go`) is.  The executable model
below is therefore modelled from the specification (sections 3, 4 and 6
of `spec.md`), resolving the points where the specification's words
contradict the repository's own tests in favour of the tests, which are
the only authoritative code present.  Each such resolution is recorded
in the doc comment of the definition concerned.

The model is a deterministic state machine.  One external trace event is
either a committed transaction record appended to the change log, one of
the watcher commands (`Watch`, `Unwatch`, `WatchCollection`,
`UnwatchCollection`), a sync cycle (the effect of `StartSync`/`Sync`/the
periodic tick), or the hand-off of one pending Change to one sink.
-/

namespace Watcher

/-- Modelled from the spec: a watched object is identified by a tuple
`(collection, id)` (spec section 3, "Key"); document ids are modelled as
strings. -/
structure Key where
  coll : String
  id   : String
deriving DecidableEq, Repr

/-- Modelled from the spec: the two kinds of subscription identity (spec
section 3, "Subscription"): a point subscription on one key, or a
collection subscription on a whole collection.  Pending and delivered
Changes are tagged with the subscription that owes them, because a sink
subscribed both ways receives a change once per subscription (spec
section 4.3 and P6). -/
inductive Sub where
  | point (k : Key)
  | coll  (c : String)
deriving DecidableEq, Repr

/-- Modelled from the spec: one queued or delivered notification: the
sink it is owed to, the subscription that owes it, and the Change data
`{collection+id = key, revno}` (spec section 3, "Change" and "Pending
Queue"). -/
structure PEntry where
  sink  : Nat
  sub   : Sub
  key   : Key
  revno : Int
deriving DecidableEq, Repr

/-- Modelled from the spec: the whole watcher state (spec sections 3 and
4): the transaction log (append-only list of records, each record a list
of `(key, newRevno)` tuples, `-1` for removals), the log cursor (count
of consumed records), the revision map `current`, the two subscriber
tables in arrival order, the pending queue, and the history of delivered
Changes (newest last), which is the observable output of the model. -/
structure WState where
  log       : List (List (Key × Int))
  cursor    : Nat
  current   : List (Key × Int)
  pointSubs : List (Key × Nat)
  collSubs  : List (String × Nat)
  pending   : List PEntry
  delivered : List PEntry
deriving DecidableEq, Repr

/-- Lookup in an association list keyed by `Key` (used for the revision
map `current`; absence means "unknown", spec section 3). -/
def lookupRev : List (Key × Int) → Key → Option Int
  | [], _ => none
  | (k', r) :: l, k => if k' = k then some r else lookupRev l k

/-- Update of the revision map: replace the first binding of the key, or
append a new binding. -/
def setRev : List (Key × Int) → Key → Int → List (Key × Int)
  | [], k, r => [(k, r)]
  | (k', r') :: l, k, r => if k' = k then (k, r) :: l else (k', r') :: setRev l k r

/-- Sinks holding a point subscription on a key, in arrival order (spec
section 4.3, `pointSubs`). -/
def subsFor : List (Key × Nat) → Key → List Nat
  | [], _ => []
  | (k', s) :: l, k => if k' = k then s :: subsFor l k else subsFor l k

/-- Sinks holding a collection subscription on a collection, in arrival
order (spec section 4.3, `collSubs`). -/
def collsFor : List (String × Nat) → String → List Nat
  | [], _ => []
  | (c', s) :: l, c => if c' = c then s :: collsFor l c else collsFor l c

/-- Membership of a `(key, sink)` point subscription. -/
def hasPair : List (Key × Nat) → Key → Nat → Bool
  | [], _, _ => false
  | (k', s') :: l, k, s => if k' = k ∧ s' = s then true else hasPair l k s

/-- Membership of a `(collection, sink)` collection subscription. -/
def hasColl : List (String × Nat) → String → Nat → Bool
  | [], _, _ => false
  | (c', s') :: l, c, s => if c' = c ∧ s' = s then true else hasColl l c s

/-- Removal of a `(key, sink)` point subscription (spec section 4.3,
`Unwatch`). -/
def removePair : List (Key × Nat) → Key → Nat → List (Key × Nat)
  | [], _, _ => []
  | (k', s') :: l, k, s =>
    if k' = k ∧ s' = s then removePair l k s else (k', s') :: removePair l k s

/-- Removal of a `(collection, sink)` collection subscription. -/
def removeColl : List (String × Nat) → String → Nat → List (String × Nat)
  | [], _, _ => []
  | (c', s') :: l, c, s =>
    if c' = c ∧ s' = s then removeColl l c s else (c', s') :: removeColl l c s

/-- Modelled from the spec: enqueueing into the pending queue with the
collapse rule (spec section 4.5): a Change for a slot — same sink, same
subscription, same key — that already has an undelivered pending Change
replaces that Change in place; otherwise it is appended.  The collapse
is per subscription (not merely per key per sink) because a sink
subscribed via both a point and a collection subscription is owed the
notification twice (spec section 4.3 and P6). -/
def enqueue : List PEntry → PEntry → List PEntry
  | [], e => [e]
  | x :: q, e =>
    if x.sink = e.sink ∧ x.sub = e.sub ∧ x.key = e.key then e :: q
    else x :: enqueue q e

/-- Modelled from the spec: the purge performed by `Unwatch(key, sink)`
(spec section 4.3): every Change for that key still pending on that sink
is discarded, whichever subscription enqueued it. -/
def purgeKey : List PEntry → Key → Nat → List PEntry
  | [], _, _ => []
  | e :: q, k, s =>
    if e.sink = s ∧ e.key = k then purgeKey q k s else e :: purgeKey q k s

/-- Modelled from the spec: the purge performed by
`UnwatchCollection(collection, sink)` (spec section 4.3): every Change
for a key of that collection still pending on that sink is discarded. -/
def purgeColl : List PEntry → String → Nat → List PEntry
  | [], _, _ => []
  | e :: q, c, s =>
    if e.sink = s ∧ e.key.coll = c then purgeColl q c s else e :: purgeColl q c s

/-- Pop the first pending Change owed to the given sink, keeping every
other entry in order (spec section 4.5: per-sink FIFO, one hand-off at a
time). -/
def popFor : List PEntry → Nat → Option (PEntry × List PEntry)
  | [], _ => none
  | e :: q, s =>
    if e.sink = s then some (e, q)
    else
      match popFor q s with
      | none => none
      | some (x, q') => some (x, e :: q')

/-- Enqueue one Change to every listed point-subscribed sink (spec
section 4.2 step 2). -/
def enqueuePoint : List PEntry → List Nat → Key → Int → List PEntry
  | q, [], _, _ => q
  | q, s :: ss, k, r => enqueuePoint (enqueue q ⟨s, Sub.point k, k, r⟩) ss k r

/-- Enqueue one Change to every listed collection-subscribed sink (spec
section 4.2 step 2). -/
def enqueueColl : List PEntry → List Nat → Key → Int → List PEntry
  | q, [], _, _ => q
  | q, s :: ss, k, r => enqueueColl (enqueue q ⟨s, Sub.coll k.coll, k, r⟩) ss k r

/-- Modelled from the spec: processing of one `(key, newRevno)` tuple of
a consumed log record (spec section 4.2): if `current[key]` exists and
equals `newRevno` the tuple is ignored (non-mutating transaction);
otherwise `current[key]` is updated and a Change is enqueued to every
point subscription for the key and every collection subscription for the
key's collection. -/
def applyEntry (st : WState) (k : Key) (r : Int) : WState :=
  if lookupRev st.current k = some r then st
  else
    { st with
      current := setRev st.current k r
      pending := enqueueColl
        (enqueuePoint st.pending (subsFor st.pointSubs k) k r)
        (collsFor st.collSubs k.coll) k r }

/-- Processing of one log record: its tuples in order. -/
def applyRec : WState → List (Key × Int) → WState
  | st, [] => st
  | st, (k, r) :: es => applyRec (applyEntry st k r) es

/-- Processing of a list of log records in order. -/
def applyRecs : WState → List (List (Key × Int)) → WState
  | st, [] => st
  | st, rc :: rcs => applyRecs (applyRec st rc) rcs

/-- Modelled from the spec: one sync cycle (spec section 4.2): consume
every log record past the cursor, in log order, then move the cursor to
the tail. -/
def syncStep (st : WState) : WState :=
  { applyRecs st (st.log.drop st.cursor) with cursor := st.log.length }

/-- Modelled from the spec and the tests: the `Watch(key, knownRevno,
sink)` command (spec sections 3, 4.2 and 4.3).  A duplicate subscription
for the same `(key, sink)` identity is idempotent (spec section 3).  For
the initial Change the spec's section 4.2 policy (enqueue iff the value
differs from `knownRevno`, with a direct document lookup when
`current[key]` is absent) contradicts the repository's tests:
`TestDoubleUpdate` watches with a known revno newer than `current[key]`
and asserts that no initial Change arrives, and
`TestIgnoreAncientHistory` watches a document that exists in the store
but is unknown to the watcher and asserts that no initial Change
arrives.  The behaviour every test requires, used here, is: no lookup is
performed; when `current[key]` is populated with `c`, an initial Change
`{key, c}` is enqueued iff `c > knownRevno` or (`c = -1` and
`knownRevno >= 0`). -/
def watchStep (st : WState) (k : Key) (known : Int) (s : Nat) : WState :=
  if hasPair st.pointSubs k s then st
  else
    let st' := { st with pointSubs := st.pointSubs ++ [(k, s)] }
    match lookupRev st.current k with
    | none => st'
    | some c =>
      if known < c ∨ (c = -1 ∧ 0 ≤ known) then
        { st' with pending := enqueue st'.pending ⟨s, Sub.point k, k, c⟩ }
      else st'

/-- Modelled from the spec: `Unwatch(key, sink)` removes the point
subscription and purges every Change for the key still pending on the
sink (spec section 4.3). -/
def unwatchStep (st : WState) (k : Key) (s : Nat) : WState :=
  { st with pointSubs := removePair st.pointSubs k s
            pending := purgeKey st.pending k s }

/-- Modelled from the spec: `WatchCollection(collection, sink)`
(idempotent on its identity, no initial Change). -/
def watchCollStep (st : WState) (c : String) (s : Nat) : WState :=
  if hasColl st.collSubs c s then st
  else { st with collSubs := st.collSubs ++ [(c, s)] }

/-- Modelled from the spec: `UnwatchCollection(collection, sink)`
removes the collection subscription and purges every Change for the
collection still pending on the sink (spec section 4.3). -/
def unwatchCollStep (st : WState) (c : String) (s : Nat) : WState :=
  { st with collSubs := removeColl st.collSubs c s
            pending := purgeColl st.pending c s }

/-- Modelled from the spec: completion of one hand-off to a sink (spec
section 4.5): the first pending Change owed to the sink is moved to the
delivered history. -/
def deliverStep (st : WState) (s : Nat) : WState :=
  match popFor st.pending s with
  | none => st
  | some (e, q) => { st with pending := q, delivered := st.delivered ++ [e] }

/-- External trace events: a transaction committing a record to the
log, a sync cycle, the four subscription commands, and the hand-off of
one pending Change to one sink. -/
inductive Event where
  | commit      (rc : List (Key × Int))
  | sync
  | watch       (k : Key) (known : Int) (s : Nat)
  | unwatch     (k : Key) (s : Nat)
  | watchColl   (c : String) (s : Nat)
  | unwatchColl (c : String) (s : Nat)
  | deliver     (s : Nat)
deriving DecidableEq, Repr

/-- One step of the machine. -/
def step (st : WState) : Event → WState
  | .commit rc => { st with log := st.log ++ [rc] }
  | .sync => syncStep st
  | .watch k known s => watchStep st k known s
  | .unwatch k s => unwatchStep st k s
  | .watchColl c s => watchCollStep st c s
  | .unwatchColl c s => unwatchCollStep st c s
  | .deliver s => deliverStep st s

/-- Run of a trace of events. -/
def runFrom : WState → List Event → WState
  | st, [] => st
  | st, e :: tr => runFrom (step st e) tr

/-- Modelled from the spec: the state of a freshly created watcher over
a store whose log already holds the records `pre` (spec section 3, "Log
Cursor", and section 4.2 first-start policy): the cursor starts at the
tail, so the pre-existing history is never consumed. -/
def initState (pre : List (List (Key × Int))) : WState :=
  ⟨pre, pre.length, [], [], [], [], []⟩

/-- Run of a trace of events on a freshly created watcher. -/
def runTrace (pre : List (List (Key × Int))) (tr : List Event) : WState :=
  runFrom (initState pre) tr

/-- Revnos of the entries of a queue or history owed to one sink via one
subscription for one key, in order. -/
def entriesVia : List PEntry → Nat → Sub → Key → List Int
  | [], _, _, _ => []
  | e :: q, s, sb, k =>
    if e.sink = s ∧ e.sub = sb ∧ e.key = k then e.revno :: entriesVia q s sb k
    else entriesVia q s sb k

/-- Revnos of the entries of a queue or history for one sink and one
key, whichever subscription enqueued them, in order. -/
def entriesOn : List PEntry → Nat → Key → List Int
  | [], _, _ => []
  | e :: q, s, k =>
    if e.sink = s ∧ e.key = k then e.revno :: entriesOn q s k
    else entriesOn q s k

/-- Entries of a queue or history owed to one sink, in order. -/
def entriesFor : List PEntry → Nat → List PEntry
  | [], _ => []
  | e :: q, s => if e.sink = s then e :: entriesFor q s else entriesFor q s

/-- Revnos delivered on a sink via one subscription for one key, oldest
first. -/
def delivVia (st : WState) (s : Nat) (sb : Sub) (k : Key) : List Int :=
  entriesVia st.delivered s sb k

/-- Revnos pending on a sink via one subscription for one key. -/
def pendVia (st : WState) (s : Nat) (sb : Sub) (k : Key) : List Int :=
  entriesVia st.pending s sb k

/-- Revnos delivered on a sink for a key, all subscriptions together. -/
def delivOn (st : WState) (s : Nat) (k : Key) : List Int :=
  entriesOn st.delivered s k

/-- Pending entries of one sink, in delivery order. -/
def pendingFor (st : WState) (s : Nat) : List PEntry :=
  entriesFor st.pending s

/-- Monotonicity of a revno sequence in the sense of invariant I4: every
non-(-1) element is strictly greater than every earlier non-(-1)
element (so -1, absence, may interleave). -/
def MonoRevs (l : List Int) : Prop :=
  List.Pairwise (fun a b => a ≠ -1 → b ≠ -1 → a < b) l

instance decMonoRevs (l : List Int) : Decidable (MonoRevs l) := by
  unfold MonoRevs
  infer_instance

/-- Revnos carried by one record for one key, in order. -/
def recRevs : List (Key × Int) → Key → List Int
  | [], _ => []
  | (k', r) :: es, k => if k' = k then r :: recRevs es k else recRevs es k

/-- Revnos carried by a list of records for one key, in order. -/
def keyRevs : List (List (Key × Int)) → Key → List Int
  | [], _ => []
  | rc :: rcs, k => recRevs rc k ++ keyRevs rcs k

/-- Records committed by a trace, in order. -/
def commitsOf : List Event → List (List (Key × Int))
  | [] => []
  | .commit rc :: tr => rc :: commitsOf tr
  | _ :: tr => commitsOf tr

/-- Count of `watch` events for one `(key, sink)` pair in a trace. -/
def countWatch : List Event → Key → Nat → Nat
  | [], _, _ => 0
  | .watch k' _ s' :: tr, k, s =>
    (if k' = k ∧ s' = s then 1 else 0) + countWatch tr k s
  | _ :: tr, k, s => countWatch tr k s

/-- Count of `watchColl` events for one `(collection, sink)` pair. -/
def countWatchColl : List Event → String → Nat → Nat
  | [], _, _ => 0
  | .watchColl c' s' :: tr, c, s =>
    (if c' = c ∧ s' = s then 1 else 0) + countWatchColl tr c s
  | _ :: tr, c, s => countWatchColl tr c s

/-- Truth of "the trace commits no transaction". -/
def commitFree : List Event → Bool
  | [] => true
  | .commit _ :: _ => false
  | _ :: tr => commitFree tr

/-- Result of the `Err` operation: either the "still alive" sentinel or
the terminal error of a dead watcher (absent after a clean shutdown). -/
inductive ErrView where
  | stillAlive
  | final (e : Option String)
deriving DecidableEq, Repr

/-- Modelled from the spec: the lifecycle of the watcher (spec section
4.6; the tomb-based lifecycle lives in the watcher implementation, which
is not under src/).  The watcher is `running` until stopped or killed by
a terminal error, which is recorded in `terminal`. -/
structure Life where
  running  : Bool
  terminal : Option String
deriving DecidableEq, Repr

/-- State of a freshly started watcher: running, no terminal error. -/
def Life.start : Life := ⟨true, none⟩

/-- Modelled from the spec: `Stop()` shuts the loop down; a clean stop
records no terminal error (spec sections 4.1 and 4.6). -/
def Life.stop (l : Life) : Life := ⟨false, l.terminal⟩

/-- Value returned by `Stop()`: the terminal error of the now-dead
watcher, absent on a clean shutdown (spec section 6). -/
def stopResult (l : Life) : Option String := (Life.stop l).terminal

/-- Modelled from the spec: the result of `Err()` (spec sections 4.6 and
6): the "still alive" sentinel while the watcher runs, and after death
the terminal error, absent on clean shutdown. -/
def errView (l : Life) : ErrView :=
  if l.running then ErrView.stillAlive else ErrView.final l.terminal

/-- Modelled from the spec: whether the Dead signal is observable to
waiting callers (spec section 4.6): exactly when the watcher is no
longer running. -/
def deadFired (l : Life) : Bool := !l.running

/-- Invariant tying one point subscription `(k, s)` to the run of the
watcher, used to prove delivery monotonicity (invariant I4).  `C` is the
ghost list of revnos for key `k` carried by the log records the watcher
has consumed since it started, in consumption order. -/
structure KInv (st : WState) (k : Key) (s : Nat) (C : List Int) : Prop where
  mono : MonoRevs (entriesVia st.delivered s (Sub.point k) k)
  pend : entriesVia st.pending s (Sub.point k) k = [] ∨
    ∃ c, entriesVia st.pending s (Sub.point k) k = [c]
      ∧ lookupRev st.current k = some c
  cur : lookupRev st.current k = C.getLast?
  delivMem : ∀ d ∈ entriesVia st.delivered s (Sub.point k) k, d ≠ -1 → d ∈ C
  delivLt : ∀ d ∈ entriesVia st.delivered s (Sub.point k) k,
    ∀ p ∈ entriesVia st.pending s (Sub.point k) k, d ≠ -1 → p ≠ -1 → d < p
  nosub : hasPair st.pointSubs k s = false →
    entriesVia st.pending s (Sub.point k) k = []
  cursorLe : st.cursor ≤ st.log.length

end Watcher

namespace Watcher

/-! ### General lemmas about the model -/

theorem applyRec_cons (st : WState) (k : Key) (r : Int) (es : List (Key × Int)) :
    applyRec st ((k, r) :: es) = applyRec (applyEntry st k r) es := rfl

theorem mem_subsFor (ps : List (Key × Nat)) (k : Key) (s : Nat) :
    s ∈ subsFor ps k ↔ hasPair ps k s = true := by
  induction ps with
  | nil => simp [subsFor, hasPair]
  | cons p ps ih =>
    obtain ⟨k', s'⟩ := p
    by_cases hk : k' = k
    · subst hk
      by_cases hs : s' = s
      · subst hs
        simp [subsFor, hasPair]
      · simp [subsFor, hasPair, hs, Ne.symm hs, ih]
    · simp [subsFor, hasPair, hk, ih]

theorem mem_collsFor (cs : List (String × Nat)) (c : String) (s : Nat) :
    s ∈ collsFor cs c ↔ hasColl cs c s = true := by
  induction cs with
  | nil => simp [collsFor, hasColl]
  | cons p cs ih =>
    obtain ⟨c', s'⟩ := p
    by_cases hk : c' = c
    · subst hk
      by_cases hs : s' = s
      · subst hs
        simp [collsFor, hasColl]
      · simp [collsFor, hasColl, hs, Ne.symm hs, ih]
    · simp [collsFor, hasColl, hk, ih]

theorem revno_mem_entriesVia (q : List PEntry) (x : PEntry) (s : Nat)
    (sb : Sub) (k : Key) (hx : x ∈ q) (hs : x.sink = s) (hb : x.sub = sb)
    (hk : x.key = k) : x.revno ∈ entriesVia q s sb k := by
  induction q with
  | nil => cases hx
  | cons e q ih =>
    rcases List.mem_cons.1 hx with he | hq
    · subst he
      simp [entriesVia, hs, hb, hk]
    · by_cases hc : e.sink = s ∧ e.sub = sb ∧ e.key = k
      · simp [entriesVia, hc]
        exact Or.inr (ih hq)
      · simpa [entriesVia, hc] using ih hq

theorem mem_entriesFor (q : List PEntry) (x : PEntry) (s : Nat)
    (hx : x ∈ q) (hs : x.sink = s) : x ∈ entriesFor q s := by
  induction q with
  | nil => cases hx
  | cons e q ih =>
    rcases List.mem_cons.1 hx with he | hq
    · subst he
      simp [entriesFor, hs]
    · by_cases hc : e.sink = s
      · simp [entriesFor, hc]
        exact Or.inr (ih hq)
      · simpa [entriesFor, hc] using ih hq

theorem entriesFor_subset (q : List PEntry) (x : PEntry) (s : Nat)
    (hx : x ∈ entriesFor q s) : x ∈ q ∧ x.sink = s := by
  induction q with
  | nil => cases hx
  | cons e q ih =>
    by_cases hc : e.sink = s
    · rw [entriesFor, if_pos hc] at hx
      rcases List.mem_cons.1 hx with he | hq
      · subst he
        exact ⟨List.mem_cons_self _ _, hc⟩
      · exact ⟨List.mem_cons.2 (Or.inr (ih hq).1), (ih hq).2⟩
    · rw [entriesFor, if_neg hc] at hx
      exact ⟨List.mem_cons.2 (Or.inr (ih hx).1), (ih hx).2⟩

theorem enqueue_eq_append (q : List PEntry) (e : PEntry)
    (h : ∀ x ∈ q, ¬(x.sink = e.sink ∧ x.sub = e.sub ∧ x.key = e.key)) :
    enqueue q e = q ++ [e] := by
  induction q with
  | nil => rfl
  | cons x q ih =>
    rw [enqueue, if_neg (h x (List.mem_cons_self _ _))]
    rw [ih fun y hy => h y (List.mem_cons.2 (Or.inr hy))]
    rfl

theorem enqueue_eq_self (q : List PEntry) (e : PEntry)
    (hall : ∀ x ∈ q, (x.sink = e.sink ∧ x.sub = e.sub ∧ x.key = e.key) → x = e)
    (hex : e ∈ q) : enqueue q e = q := by
  induction q with
  | nil => cases hex
  | cons x q ih =>
    by_cases hc : x.sink = e.sink ∧ x.sub = e.sub ∧ x.key = e.key
    · rw [enqueue, if_pos hc, hall x (List.mem_cons_self _ _) hc]
    · rw [enqueue, if_neg hc]
      have hex' : e ∈ q := by
        rcases List.mem_cons.1 hex with he | hq
        · exact absurd (by rw [he]; exact ⟨rfl, rfl, rfl⟩) hc
        · exact hq
      rw [ih (fun y hy => hall y (List.mem_cons.2 (Or.inr hy))) hex']

theorem entriesFor_append_one (q : List PEntry) (e : PEntry) (s : Nat) :
    entriesFor (q ++ [e]) s
      = entriesFor q s ++ (if e.sink = s then [e] else []) := by
  induction q with
  | nil => rfl
  | cons x q ih =>
    by_cases hc : x.sink = s
    · simp only [List.cons_append, entriesFor, if_pos hc, List.append_eq, ih]
    · simp only [List.cons_append, entriesFor, if_neg hc, List.append_eq, ih]

theorem entriesVia_append_one (q : List PEntry) (e : PEntry) (s : Nat)
    (sb : Sub) (k : Key) :
    entriesVia (q ++ [e]) s sb k
      = entriesVia q s sb k
        ++ (if e.sink = s ∧ e.sub = sb ∧ e.key = k then [e.revno] else []) := by
  induction q with
  | nil => rfl
  | cons x q ih =>
    by_cases hc : x.sink = s ∧ x.sub = sb ∧ x.key = k
    · simp only [List.cons_append, entriesVia, if_pos hc, List.append_eq, ih]
    · simp only [List.cons_append, entriesVia, if_neg hc, List.append_eq, ih]

theorem entriesFor_enqueue_ne (q : List PEntry) (e : PEntry) (s : Nat)
    (h : e.sink ≠ s) : entriesFor (enqueue q e) s = entriesFor q s := by
  induction q with
  | nil => simp [enqueue, entriesFor, h]
  | cons x q ih =>
    by_cases hc : x.sink = e.sink ∧ x.sub = e.sub ∧ x.key = e.key
    · have hx : x.sink ≠ s := by rw [hc.1]; exact h
      rw [enqueue, if_pos hc, entriesFor, if_neg h, entriesFor, if_neg hx]
    · by_cases hx : x.sink = s
      · rw [enqueue, if_neg hc, entriesFor, if_pos hx, entriesFor, if_pos hx, ih]
      · rw [enqueue, if_neg hc, entriesFor, if_neg hx, entriesFor, if_neg hx, ih]

theorem entriesVia_enqueue_ne (q : List PEntry) (e : PEntry) (s : Nat)
    (sb : Sub) (k : Key) (h : ¬(e.sink = s ∧ e.sub = sb ∧ e.key = k)) :
    entriesVia (enqueue q e) s sb k = entriesVia q s sb k := by
  induction q with
  | nil => simp [enqueue, entriesVia, h]
  | cons x q ih =>
    by_cases hc : x.sink = e.sink ∧ x.sub = e.sub ∧ x.key = e.key
    · have hx : ¬(x.sink = s ∧ x.sub = sb ∧ x.key = k) := by
        rw [hc.1, hc.2.1, hc.2.2]
        exact h
      rw [enqueue, if_pos hc, entriesVia, if_neg h, entriesVia, if_neg hx]
    · by_cases hx : x.sink = s ∧ x.sub = sb ∧ x.key = k
      · rw [enqueue, if_neg hc, entriesVia, if_pos hx, entriesVia, if_pos hx, ih]
      · rw [enqueue, if_neg hc, entriesVia, if_neg hx, entriesVia, if_neg hx, ih]

theorem entriesFor_purgeKey_ne (q : List PEntry) (k : Key) (s s' : Nat)
    (h : s' ≠ s) : entriesFor (purgeKey q k s) s' = entriesFor q s' := by
  induction q with
  | nil => rfl
  | cons e q ih =>
    by_cases hc : e.sink = s ∧ e.key = k
    · have he : e.sink ≠ s' := by rw [hc.1]; exact fun hh => h hh.symm
      rw [purgeKey, if_pos hc, ih, entriesFor, if_neg he]
    · by_cases hx : e.sink = s'
      · rw [purgeKey, if_neg hc, entriesFor, if_pos hx, entriesFor, if_pos hx, ih]
      · rw [purgeKey, if_neg hc, entriesFor, if_neg hx, entriesFor, if_neg hx, ih]

theorem entriesVia_purgeKey_ne_key (q : List PEntry) (k : Key) (s s2 : Nat)
    (sb : Sub) (k' : Key) (h : k' ≠ k) :
    entriesVia (purgeKey q k s) s2 sb k' = entriesVia q s2 sb k' := by
  induction q with
  | nil => rfl
  | cons e q ih =>
    by_cases hc : e.sink = s ∧ e.key = k
    · have he : ¬(e.sink = s2 ∧ e.sub = sb ∧ e.key = k') := by
        intro hh
        exact h (by rw [← hh.2.2, hc.2])
      rw [purgeKey, if_pos hc, ih, entriesVia, if_neg he]
    · by_cases hx : e.sink = s2 ∧ e.sub = sb ∧ e.key = k'
      · rw [purgeKey, if_neg hc, entriesVia, if_pos hx, entriesVia, if_pos hx, ih]
      · rw [purgeKey, if_neg hc, entriesVia, if_neg hx, entriesVia, if_neg hx, ih]

theorem entriesVia_purgeKey_self (q : List PEntry) (k : Key) (s : Nat)
    (sb : Sub) : entriesVia (purgeKey q k s) s sb k = [] := by
  induction q with
  | nil => rfl
  | cons e q ih =>
    by_cases hc : e.sink = s ∧ e.key = k
    · rw [purgeKey, if_pos hc, ih]
    · have he : ¬(e.sink = s ∧ e.sub = sb ∧ e.key = k) := by
        intro hh
        exact hc ⟨hh.1, hh.2.2⟩
      rw [purgeKey, if_neg hc, entriesVia, if_neg he, ih]

theorem entriesVia_purgeColl_ne (q : List PEntry) (c : String) (s s2 : Nat)
    (sb : Sub) (k' : Key) (h : ¬(s2 = s ∧ k'.coll = c)) :
    entriesVia (purgeColl q c s) s2 sb k' = entriesVia q s2 sb k' := by
  induction q with
  | nil => rfl
  | cons e q ih =>
    by_cases hc : e.sink = s ∧ e.key.coll = c
    · have he : ¬(e.sink = s2 ∧ e.sub = sb ∧ e.key = k') := by
        intro hh
        exact h ⟨by rw [← hh.1, hc.1], by rw [← hh.2.2, hc.2]⟩
      rw [purgeColl, if_pos hc, ih, entriesVia, if_neg he]
    · by_cases hx : e.sink = s2 ∧ e.sub = sb ∧ e.key = k'
      · rw [purgeColl, if_neg hc, entriesVia, if_pos hx, entriesVia, if_pos hx, ih]
      · rw [purgeColl, if_neg hc, entriesVia, if_neg hx, entriesVia, if_neg hx, ih]

theorem entriesVia_purgeColl_self (q : List PEntry) (c : String) (s : Nat)
    (sb : Sub) (k' : Key) (hk : k'.coll = c) :
    entriesVia (purgeColl q c s) s sb k' = [] := by
  induction q with
  | nil => rfl
  | cons e q ih =>
    by_cases hc : e.sink = s ∧ e.key.coll = c
    · rw [purgeColl, if_pos hc, ih]
    · have he : ¬(e.sink = s ∧ e.sub = sb ∧ e.key = k') := by
        intro hh
        exact hc ⟨hh.1, by rw [hh.2.2, hk]⟩
      rw [purgeColl, if_neg hc, entriesVia, if_neg he, ih]

theorem hasPair_removePair_ne (ps : List (Key × Nat)) (k : Key) (s : Nat)
    (k2 : Key) (s2 : Nat) (h : ¬(k2 = k ∧ s2 = s)) :
    hasPair (removePair ps k s) k2 s2 = hasPair ps k2 s2 := by
  induction ps with
  | nil => rfl
  | cons p ps ih =>
    obtain ⟨k', s'⟩ := p
    by_cases hc : k' = k ∧ s' = s
    · have he : ¬(k' = k2 ∧ s' = s2) := by
        intro hh
        exact h ⟨by rw [← hh.1, hc.1], by rw [← hh.2, hc.2]⟩
      rw [removePair, if_pos hc, ih, hasPair, if_neg he]
    · by_cases hx : k' = k2 ∧ s' = s2
      · rw [removePair, if_neg hc, hasPair, if_pos hx, hasPair, if_pos hx]
      · rw [removePair, if_neg hc, hasPair, if_neg hx, hasPair, if_neg hx, ih]

theorem hasPair_removePair_self (ps : List (Key × Nat)) (k : Key) (s : Nat) :
    hasPair (removePair ps k s) k s = false := by
  induction ps with
  | nil => rfl
  | cons p ps ih =>
    obtain ⟨k', s'⟩ := p
    by_cases hc : k' = k ∧ s' = s
    · rw [removePair, if_pos hc, ih]
    · rw [removePair, if_neg hc, hasPair, if_neg hc, ih]

theorem hasColl_removeColl_ne (cs : List (String × Nat)) (c : String) (s : Nat)
    (c2 : String) (s2 : Nat) (h : ¬(c2 = c ∧ s2 = s)) :
    hasColl (removeColl cs c s) c2 s2 = hasColl cs c2 s2 := by
  induction cs with
  | nil => rfl
  | cons p cs ih =>
    obtain ⟨c', s'⟩ := p
    by_cases hc : c' = c ∧ s' = s
    · have he : ¬(c' = c2 ∧ s' = s2) := by
        intro hh
        exact h ⟨by rw [← hh.1, hc.1], by rw [← hh.2, hc.2]⟩
      rw [removeColl, if_pos hc, ih, hasColl, if_neg he]
    · by_cases hx : c' = c2 ∧ s' = s2
      · rw [removeColl, if_neg hc, hasColl, if_pos hx, hasColl, if_pos hx]
      · rw [removeColl, if_neg hc, hasColl, if_neg hx, hasColl, if_neg hx, ih]

theorem hasColl_removeColl_self (cs : List (String × Nat)) (c : String)
    (s : Nat) : hasColl (removeColl cs c s) c s = false := by
  induction cs with
  | nil => rfl
  | cons p cs ih =>
    obtain ⟨c', s'⟩ := p
    by_cases hc : c' = c ∧ s' = s
    · rw [removeColl, if_pos hc, ih]
    · rw [removeColl, if_neg hc, hasColl, if_neg hc, ih]

theorem hasPair_append_one (ps : List (Key × Nat)) (k : Key) (s : Nat)
    (k2 : Key) (s2 : Nat) :
    hasPair (ps ++ [(k, s)]) k2 s2
      = (hasPair ps k2 s2 || decide (k = k2 ∧ s = s2)) := by
  induction ps with
  | nil =>
    by_cases hc : k = k2 ∧ s = s2
    · simp [hasPair, hc]
    · simp [hasPair, hc]
  | cons p ps ih =>
    obtain ⟨k', s'⟩ := p
    by_cases hx : k' = k2 ∧ s' = s2
    · simp only [List.cons_append, hasPair, if_pos hx, Bool.true_or]
    · simp only [List.cons_append, hasPair, if_neg hx, List.append_eq, ih]

theorem enqueuePoint_keeps (ss : List Nat) (q : List PEntry) (k : Key)
    (r : Int) (s : Nat)
    (h : entriesFor q s = [⟨s, Sub.point k, k, r⟩]) :
    entriesFor (enqueuePoint q ss k r) s = [⟨s, Sub.point k, k, r⟩] := by
  induction ss generalizing q with
  | nil => exact h
  | cons s0 ss ih =>
    rw [enqueuePoint]
    apply ih
    by_cases hs : s0 = s
    · subst hs
      rw [enqueue_eq_self]
      · exact h
      · intro x hx hm
        have hxf : x ∈ entriesFor q s0 := mem_entriesFor q x s0 hx hm.1
        rw [h] at hxf
        exact List.mem_singleton.1 hxf
      · have hme : (⟨s0, Sub.point k, k, r⟩ : PEntry) ∈ entriesFor q s0 := by
          rw [h]
          exact List.mem_cons_self _ _
        exact (entriesFor_subset q _ s0 hme).1
    · rw [entriesFor_enqueue_ne q ⟨s0, Sub.point k, k, r⟩ s hs, h]

theorem enqueuePoint_fresh (ss : List Nat) (q : List PEntry) (k : Key)
    (r : Int) (s : Nat) (h : entriesFor q s = []) :
    entriesFor (enqueuePoint q ss k r) s
      = if s ∈ ss then [⟨s, Sub.point k, k, r⟩] else [] := by
  induction ss generalizing q with
  | nil => simpa using h
  | cons s0 ss ih =>
    rw [enqueuePoint]
    by_cases hs : s0 = s
    · subst hs
      have happ : enqueue q ⟨s0, Sub.point k, k, r⟩
          = q ++ [⟨s0, Sub.point k, k, r⟩] := by
        apply enqueue_eq_append
        intro x hx hm
        have hxf : x ∈ entriesFor q s0 := mem_entriesFor q x s0 hx hm.1
        rw [h] at hxf
        cases hxf
      have hone : entriesFor (enqueue q ⟨s0, Sub.point k, k, r⟩) s0
          = [⟨s0, Sub.point k, k, r⟩] := by
        rw [happ, entriesFor_append_one, h, if_pos rfl]
        rfl
      rw [enqueuePoint_keeps ss _ k r s0 hone, if_pos (List.mem_cons_self _ _)]
    · have h' : entriesFor (enqueue q ⟨s0, Sub.point k, k, r⟩) s = [] := by
        rw [entriesFor_enqueue_ne q ⟨s0, Sub.point k, k, r⟩ s hs]
        exact h
      rw [ih _ h']
      by_cases hm : s ∈ ss
      · rw [if_pos hm, if_pos (List.mem_cons.2 (Or.inr hm))]
      · rw [if_neg hm, if_neg]
        intro hmm
        rcases List.mem_cons.1 hmm with h1 | h2
        · exact hs h1.symm
        · exact hm h2

theorem enqueueColl_keeps2 (cs : List Nat) (q : List PEntry) (k : Key)
    (r : Int) (s : Nat)
    (h : entriesFor q s
      = [⟨s, Sub.point k, k, r⟩, ⟨s, Sub.coll k.coll, k, r⟩]) :
    entriesFor (enqueueColl q cs k r) s
      = [⟨s, Sub.point k, k, r⟩, ⟨s, Sub.coll k.coll, k, r⟩] := by
  induction cs generalizing q with
  | nil => exact h
  | cons s0 cs ih =>
    rw [enqueueColl]
    apply ih
    by_cases hs : s0 = s
    · subst hs
      rw [enqueue_eq_self]
      · exact h
      · intro x hx hm
        have hxf : x ∈ entriesFor q s0 := mem_entriesFor q x s0 hx hm.1
        rw [h] at hxf
        rcases List.mem_cons.1 hxf with h1 | h2
        · rw [h1] at hm
          exact absurd hm.2.1 (by simp)
        · exact List.mem_singleton.1 h2
      · have hme : (⟨s0, Sub.coll k.coll, k, r⟩ : PEntry) ∈ entriesFor q s0 := by
          rw [h]
          exact List.mem_cons.2 (Or.inr (List.mem_cons_self _ _))
        exact (entriesFor_subset q _ s0 hme).1
    · rw [entriesFor_enqueue_ne q ⟨s0, Sub.coll k.coll, k, r⟩ s hs, h]

theorem enqueueColl_second (cs : List Nat) (q : List PEntry) (k : Key)
    (r : Int) (s : Nat)
    (h : entriesFor q s = [⟨s, Sub.point k, k, r⟩]) :
    entriesFor (enqueueColl q cs k r) s
      = if s ∈ cs
        then [⟨s, Sub.point k, k, r⟩, ⟨s, Sub.coll k.coll, k, r⟩]
        else [⟨s, Sub.point k, k, r⟩] := by
  induction cs generalizing q with
  | nil => simpa using h
  | cons s0 cs ih =>
    rw [enqueueColl]
    by_cases hs : s0 = s
    · subst hs
      have happ : enqueue q ⟨s0, Sub.coll k.coll, k, r⟩
          = q ++ [⟨s0, Sub.coll k.coll, k, r⟩] := by
        apply enqueue_eq_append
        intro x hx hm
        have hxf : x ∈ entriesFor q s0 := mem_entriesFor q x s0 hx hm.1
        rw [h] at hxf
        have hxe := List.mem_singleton.1 hxf
        rw [hxe] at hm
        exact absurd hm.2.1 (by simp)
      have htwo : entriesFor (enqueue q ⟨s0, Sub.coll k.coll, k, r⟩) s0
          = [⟨s0, Sub.point k, k, r⟩, ⟨s0, Sub.coll k.coll, k, r⟩] := by
        rw [happ, entriesFor_append_one, h, if_pos rfl]
        rfl
      rw [enqueueColl_keeps2 cs _ k r s0 htwo,
        if_pos (List.mem_cons_self _ _)]
    · have h' : entriesFor (enqueue q ⟨s0, Sub.coll k.coll, k, r⟩) s
          = [⟨s, Sub.point k, k, r⟩] := by
        rw [entriesFor_enqueue_ne q ⟨s0, Sub.coll k.coll, k, r⟩ s hs]
        exact h
      rw [ih _ h']
      by_cases hm : s ∈ cs
      · rw [if_pos hm, if_pos (List.mem_cons.2 (Or.inr hm))]
      · rw [if_neg hm, if_neg]
        intro hmm
        rcases List.mem_cons.1 hmm with h1 | h2
        · exact hs h1.symm
        · exact hm h2

/-! ### Claim C3 -/

/-- Claim C3 (confirmed): a transaction record whose post-image revno
equals the watcher's currently tracked revno for every key it touches
produces zero Changes on every sink — indeed processing such a record
leaves the whole watcher state (pending queues included) unchanged. -/
theorem nonMutatingRecordNoChanges (st : WState) (rc : List (Key × Int))
    (h : ∀ p ∈ rc, lookupRev st.current p.1 = some p.2) :
    applyRec st rc = st := by
  induction rc with
  | nil => rfl
  | cons p es ih =>
    obtain ⟨k, r⟩ := p
    have hk : lookupRev st.current k = some r := h (k, r) (by simp)
    have he : applyEntry st k r = st := by simp [applyEntry, hk]
    rw [applyRec_cons, he]
    exact ih fun q hq => h q (by simp [hq])

/-- Witness for C3: a concrete watcher that tracks revno 1 for key
`("test", "a")` and has both a point and a collection subscriber; the
record re-asserting revno 1 changes nothing. -/
theorem nonMutatingRecordNoChangesWitness :
    (∀ p ∈ [((⟨"test", "a"⟩ : Key), (1 : Int))],
      lookupRev (runTrace [] [Event.commit [(⟨"test", "a"⟩, 1)], Event.sync,
        Event.watch ⟨"test", "a"⟩ 1 0, Event.watchColl "test" 0]).current p.1
        = some p.2) ∧
    applyRec (runTrace [] [Event.commit [(⟨"test", "a"⟩, 1)], Event.sync,
        Event.watch ⟨"test", "a"⟩ 1 0, Event.watchColl "test" 0])
      [(⟨"test", "a"⟩, 1)]
      = runTrace [] [Event.commit [(⟨"test", "a"⟩, 1)], Event.sync,
        Event.watch ⟨"test", "a"⟩ 1 0, Event.watchColl "test" 0] :=
  ⟨by decide, nonMutatingRecordNoChanges _ _ (by decide)⟩

/-! ### Claim C5 -/

/-- Helper for C5: from any state with an empty revision map, an empty
pending queue, and the log cursor at the tail, a commit-free trace never
queues or delivers anything. -/
theorem commitFree_frozen : ∀ (tr : List Event) (st : WState),
    commitFree tr = true → st.current = [] → st.pending = [] →
    st.cursor = st.log.length →
    (runFrom st tr).delivered = st.delivered ∧ (runFrom st tr).pending = [] := by
  intro tr
  induction tr with
  | nil => exact fun st _ _ h2 _ => ⟨rfl, h2⟩
  | cons e tr ih =>
    intro st hcf hcur hpend hc
    cases e with
    | commit rc => simp [commitFree] at hcf
    | sync =>
      have hdrop : st.log.drop st.cursor = [] := by
        rw [hc, List.drop_length]
      have hstep : runFrom st (Event.sync :: tr)
          = runFrom { st with cursor := st.log.length } tr := by
        simp [runFrom, step, syncStep, hdrop, applyRecs]
      rw [hstep]
      exact ih _ (by simpa [commitFree] using hcf) hcur hpend rfl
    | watch k known s =>
      have hstep : step st (Event.watch k known s)
          = if hasPair st.pointSubs k s then st
            else { st with pointSubs := st.pointSubs ++ [(k, s)] } := by
        simp [step, watchStep, hcur, lookupRev]
      by_cases hw : hasPair st.pointSubs k s
      · rw [show runFrom st (Event.watch k known s :: tr)
            = runFrom (step st (Event.watch k known s)) tr from rfl, hstep,
          if_pos hw]
        exact ih _ (by simpa [commitFree] using hcf) hcur hpend hc
      · rw [show runFrom st (Event.watch k known s :: tr)
            = runFrom (step st (Event.watch k known s)) tr from rfl, hstep,
          if_neg hw]
        exact ih _ (by simpa [commitFree] using hcf) hcur hpend hc
    | unwatch k s =>
      have hstep : runFrom st (Event.unwatch k s :: tr)
          = runFrom { st with pointSubs := removePair st.pointSubs k s,
                              pending := purgeKey st.pending k s } tr := rfl
      rw [hstep]
      exact ih _ (by simpa [commitFree] using hcf) hcur
        (by rw [hpend]; rfl) hc
    | watchColl c s =>
      by_cases hw : hasColl st.collSubs c s
      · rw [show runFrom st (Event.watchColl c s :: tr)
            = runFrom (watchCollStep st c s) tr from rfl]
        rw [show watchCollStep st c s = st from by simp [watchCollStep, hw]]
        exact ih _ (by simpa [commitFree] using hcf) hcur hpend hc
      · rw [show runFrom st (Event.watchColl c s :: tr)
            = runFrom (watchCollStep st c s) tr from rfl]
        rw [show watchCollStep st c s
            = { st with collSubs := st.collSubs ++ [(c, s)] } from by
          simp [watchCollStep, hw]]
        exact ih _ (by simpa [commitFree] using hcf) hcur hpend hc
    | unwatchColl c s =>
      have hstep : runFrom st (Event.unwatchColl c s :: tr)
          = runFrom { st with collSubs := removeColl st.collSubs c s,
                              pending := purgeColl st.pending c s } tr := rfl
      rw [hstep]
      exact ih _ (by simpa [commitFree] using hcf) hcur
        (by rw [hpend]; rfl) hc
    | deliver s =>
      have hstep : runFrom st (Event.deliver s :: tr)
          = runFrom (deliverStep st s) tr := rfl
      rw [hstep, show deliverStep st s = st from by
        simp [deliverStep, hpend, popFor]]
      exact ih _ (by simpa [commitFree] using hcf) hcur hpend hc

/-- Claim C5 (confirmed): a freshly started watcher jumps to the tail of
the log: whatever transactions were committed before it started, any
continuation that commits nothing further — subscribing included —
delivers no Change at all (in particular none derived from log history),
and leaves nothing pending. -/
theorem firstStartIgnoresHistory (pre : List (List (Key × Int)))
    (tr : List Event) (h : commitFree tr = true) :
    (runTrace pre tr).delivered = [] ∧ (runTrace pre tr).pending = [] := by
  have hfr := commitFree_frozen tr (initState pre) h rfl rfl rfl
  exact ⟨hfr.1, hfr.2⟩

/-- Witness for C5: a store holding key `("test", "a")` at revno 7
before the watcher starts; the watcher syncs, watches the key with known
revno -1, syncs again and attempts a delivery: nothing arrives. -/
theorem firstStartIgnoresHistoryWitness :
    commitFree [Event.sync, Event.watch ⟨"test", "a"⟩ (-1) 0, Event.sync,
        Event.deliver 0] = true ∧
    (runTrace [[(⟨"test", "a"⟩, 7)]] [Event.sync,
        Event.watch ⟨"test", "a"⟩ (-1) 0, Event.sync,
        Event.deliver 0]).delivered = [] :=
  ⟨by decide,
   (firstStartIgnoresHistory [[(⟨"test", "a"⟩, 7)]] _ (by decide)).1⟩

/-! ### Claim C7 -/

/-- Claim C7 (confirmed): a sink subscribed to a key both via a point
subscription and via a collection subscription receives a single change
to that key as exactly two Changes, one per subscription, the point one
first; and (concrete scenario S5, with distinct sinks) the point sink
receives exactly the Change for its key while the collection sink
receives exactly one Change per changed key of the collection, in
log-consumption order. -/
theorem doubleSubscriptionTwoChanges (st : WState) (k : Key) (r : Int)
    (s : Nat)
    (hp : hasPair st.pointSubs k s = true)
    (hc : hasColl st.collSubs k.coll s = true)
    (h0 : pendingFor st s = [])
    (hcur : lookupRev st.current k ≠ some r) :
    (pendingFor (applyEntry st k r) s
      = [⟨s, Sub.point k, k, r⟩, ⟨s, Sub.coll k.coll, k, r⟩]) ∧
    entriesFor (runTrace [] [Event.watch ⟨"testA", "1"⟩ (-1) 0,
        Event.watchColl "testA" 1, Event.commit [(⟨"testA", "1"⟩, 2)],
        Event.commit [(⟨"testA", "2"⟩, 3)], Event.sync, Event.deliver 0,
        Event.deliver 1, Event.deliver 1]).delivered 0
      = [⟨0, Sub.point ⟨"testA", "1"⟩, ⟨"testA", "1"⟩, 2⟩] ∧
    entriesFor (runTrace [] [Event.watch ⟨"testA", "1"⟩ (-1) 0,
        Event.watchColl "testA" 1, Event.commit [(⟨"testA", "1"⟩, 2)],
        Event.commit [(⟨"testA", "2"⟩, 3)], Event.sync, Event.deliver 0,
        Event.deliver 1, Event.deliver 1]).delivered 1
      = [⟨1, Sub.coll "testA", ⟨"testA", "1"⟩, 2⟩,
         ⟨1, Sub.coll "testA", ⟨"testA", "2"⟩, 3⟩] := by
  refine ⟨?_, by decide, by decide⟩
  have hA : (applyEntry st k r).pending
      = enqueueColl (enqueuePoint st.pending (subsFor st.pointSubs k) k r)
          (collsFor st.collSubs k.coll) k r := by
    rw [applyEntry, if_neg hcur]
  show entriesFor (applyEntry st k r).pending s = _
  rw [hA]
  have h1 : entriesFor (enqueuePoint st.pending (subsFor st.pointSubs k) k r) s
      = [⟨s, Sub.point k, k, r⟩] := by
    rw [enqueuePoint_fresh _ _ _ _ _ h0, if_pos ((mem_subsFor _ _ _).2 hp)]
  rw [enqueueColl_second _ _ _ _ _ h1, if_pos ((mem_collsFor _ _ _).2 hc)]

/-- Witness for C7: a sink holding both subscriptions on key
`("t", "1")` receives the change to revno 2 twice. -/
theorem doubleSubscriptionTwoChangesWitness :
    pendingFor (applyEntry (runTrace [] [Event.watch ⟨"t", "1"⟩ (-1) 0,
        Event.watchColl "t" 0]) ⟨"t", "1"⟩ 2) 0
      = [⟨0, Sub.point ⟨"t", "1"⟩, ⟨"t", "1"⟩, 2⟩,
         ⟨0, Sub.coll "t", ⟨"t", "1"⟩, 2⟩] :=
  (doubleSubscriptionTwoChanges
    (runTrace [] [Event.watch ⟨"t", "1"⟩ (-1) 0, Event.watchColl "t" 0])
    ⟨"t", "1"⟩ 2 0 (by decide) (by decide) (by decide) (by decide)).1

/-! ### Claim C10 -/

/-- Claim C10 (confirmed): `Unwatch(k, s)` is frame-preserving: every
other sink keeps its pending Changes unchanged; on the unwatched sink
only the Changes for the unwatched key disappear (other keys keep
theirs) and it never receives a Change for that key from the purged
queue; every other point subscription survives; and a change to a key
with no point and no collection subscriber enqueues nothing for any
sink. -/
theorem unwatchFrameEffect (st : WState) (k : Key) (s : Nat) (k' : Key)
    (r : Int) :
    (∀ s', s' ≠ s → pendingFor (unwatchStep st k s) s' = pendingFor st s') ∧
    (∀ sb k2, k2 ≠ k →
      pendVia (unwatchStep st k s) s sb k2 = pendVia st s sb k2) ∧
    (∀ sb, pendVia (unwatchStep st k s) s sb k = []) ∧
    (∀ k2 s2, ¬(k2 = k ∧ s2 = s) →
      hasPair (unwatchStep st k s).pointSubs k2 s2
        = hasPair st.pointSubs k2 s2) ∧
    (subsFor st.pointSubs k' = [] → collsFor st.collSubs k'.coll = [] →
      (applyEntry st k' r).pending = st.pending) := by
  refine ⟨?_, ?_, ?_, ?_, ?_⟩
  · intro s' hs
    show entriesFor (purgeKey st.pending k s) s' = entriesFor st.pending s'
    exact entriesFor_purgeKey_ne st.pending k s s' hs
  · intro sb k2 hk
    show entriesVia (purgeKey st.pending k s) s sb k2
      = entriesVia st.pending s sb k2
    exact entriesVia_purgeKey_ne_key st.pending k s s sb k2 hk
  · intro sb
    show entriesVia (purgeKey st.pending k s) s sb k = []
    exact entriesVia_purgeKey_self st.pending k s sb
  · intro k2 s2 h2
    show hasPair (removePair st.pointSubs k s) k2 s2 = hasPair st.pointSubs k2 s2
    exact hasPair_removePair_ne st.pointSubs k s k2 s2 h2
  · intro hsub hcoll
    by_cases hcur : lookupRev st.current k' = some r
    · rw [applyEntry, if_pos hcur]
    · rw [applyEntry, if_neg hcur]
      show enqueueColl (enqueuePoint st.pending (subsFor st.pointSubs k') k' r)
        (collsFor st.collSubs k'.coll) k' r = st.pending
      rw [hsub, hcoll]
      rfl

/-- Witness for C10: two sinks watch two distinct keys with one pending
Change each; unwatching `("test", "a")` on sink 0 leaves sink 1 intact,
drops the Change for sink 0, keeps the other subscription, and a change
to the unwatched key `("other", "z")` enqueues nothing. -/
theorem unwatchFrameEffectWitness :
    pendingFor (unwatchStep (runTrace [] [Event.watch ⟨"test", "a"⟩ (-1) 0,
        Event.watch ⟨"test", "b"⟩ (-1) 1, Event.commit [(⟨"test", "a"⟩, 5)],
        Event.commit [(⟨"test", "b"⟩, 6)], Event.sync]) ⟨"test", "a"⟩ 0) 1
      = pendingFor (runTrace [] [Event.watch ⟨"test", "a"⟩ (-1) 0,
        Event.watch ⟨"test", "b"⟩ (-1) 1, Event.commit [(⟨"test", "a"⟩, 5)],
        Event.commit [(⟨"test", "b"⟩, 6)], Event.sync]) 1 ∧
    pendVia (unwatchStep (runTrace [] [Event.watch ⟨"test", "a"⟩ (-1) 0,
        Event.watch ⟨"test", "b"⟩ (-1) 1, Event.commit [(⟨"test", "a"⟩, 5)],
        Event.commit [(⟨"test", "b"⟩, 6)], Event.sync]) ⟨"test", "a"⟩ 0) 0
        (Sub.point ⟨"test", "a"⟩) ⟨"test", "a"⟩ = [] ∧
    hasPair (unwatchStep (runTrace [] [Event.watch ⟨"test", "a"⟩ (-1) 0,
        Event.watch ⟨"test", "b"⟩ (-1) 1, Event.commit [(⟨"test", "a"⟩, 5)],
        Event.commit [(⟨"test", "b"⟩, 6)], Event.sync]) ⟨"test", "a"⟩
        0).pointSubs ⟨"test", "b"⟩ 1
      = hasPair (runTrace [] [Event.watch ⟨"test", "a"⟩ (-1) 0,
        Event.watch ⟨"test", "b"⟩ (-1) 1, Event.commit [(⟨"test", "a"⟩, 5)],
        Event.commit [(⟨"test", "b"⟩, 6)], Event.sync]).pointSubs
        ⟨"test", "b"⟩ 1 ∧
    (applyEntry (runTrace [] [Event.watch ⟨"test", "a"⟩ (-1) 0,
        Event.watch ⟨"test", "b"⟩ (-1) 1, Event.commit [(⟨"test", "a"⟩, 5)],
        Event.commit [(⟨"test", "b"⟩, 6)], Event.sync]) ⟨"other", "z"⟩
        7).pending
      = (runTrace [] [Event.watch ⟨"test", "a"⟩ (-1) 0,
        Event.watch ⟨"test", "b"⟩ (-1) 1, Event.commit [(⟨"test", "a"⟩, 5)],
        Event.commit [(⟨"test", "b"⟩, 6)], Event.sync]).pending :=
  ⟨(unwatchFrameEffect (runTrace [] [Event.watch ⟨"test", "a"⟩ (-1) 0,
      Event.watch ⟨"test", "b"⟩ (-1) 1, Event.commit [(⟨"test", "a"⟩, 5)],
      Event.commit [(⟨"test", "b"⟩, 6)], Event.sync]) ⟨"test", "a"⟩ 0
      ⟨"other", "z"⟩ 7).1 1 (by decide),
   (unwatchFrameEffect (runTrace [] [Event.watch ⟨"test", "a"⟩ (-1) 0,
      Event.watch ⟨"test", "b"⟩ (-1) 1, Event.commit [(⟨"test", "a"⟩, 5)],
      Event.commit [(⟨"test", "b"⟩, 6)], Event.sync]) ⟨"test", "a"⟩ 0
      ⟨"other", "z"⟩ 7).2.2.1 (Sub.point ⟨"test", "a"⟩),
   (unwatchFrameEffect (runTrace [] [Event.watch ⟨"test", "a"⟩ (-1) 0,
      Event.watch ⟨"test", "b"⟩ (-1) 1, Event.commit [(⟨"test", "a"⟩, 5)],
      Event.commit [(⟨"test", "b"⟩, 6)], Event.sync]) ⟨"test", "a"⟩ 0
      ⟨"other", "z"⟩ 7).2.2.2.1 ⟨"test", "b"⟩ 1 (by decide),
   (unwatchFrameEffect (runTrace [] [Event.watch ⟨"test", "a"⟩ (-1) 0,
      Event.watch ⟨"test", "b"⟩ (-1) 1, Event.commit [(⟨"test", "a"⟩, 5)],
      Event.commit [(⟨"test", "b"⟩, 6)], Event.sync]) ⟨"test", "a"⟩ 0
      ⟨"other", "z"⟩ 7).2.2.2.2 (by decide) (by decide)⟩

theorem entriesVia_append (a b : List PEntry) (s : Nat) (sb : Sub) (k : Key) :
    entriesVia (a ++ b) s sb k = entriesVia a s sb k ++ entriesVia b s sb k := by
  induction a with
  | nil => rfl
  | cons x a ih =>
    by_cases hc : x.sink = s ∧ x.sub = sb ∧ x.key = k
    · simp only [List.cons_append, entriesVia, if_pos hc, List.append_eq, ih,
        List.cons_append]
    · simp only [List.cons_append, entriesVia, if_neg hc, List.append_eq, ih]

theorem popFor_split (q : List PEntry) (s : Nat) (e : PEntry)
    (q' : List PEntry) (h : popFor q s = some (e, q')) :
    ∃ q1 q2, q = q1 ++ e :: q2 ∧ q' = q1 ++ q2 ∧ (∀ x ∈ q1, x.sink ≠ s)
      ∧ e.sink = s := by
  induction q generalizing q' with
  | nil => cases h
  | cons x q ih =>
    by_cases hc : x.sink = s
    · rw [popFor, if_pos hc] at h
      have hx : x = e ∧ q = q' := by
        have h1 := congrArg (fun o => Option.map Prod.fst o) h
        have h2 := congrArg (fun o => Option.map Prod.snd o) h
        simp at h1 h2
        exact ⟨h1, h2⟩
      refine ⟨[], q, ?_, ?_, ?_, ?_⟩
      · rw [hx.1]; rfl
      · rw [hx.2]; rfl
      · intro x hx2; cases hx2
      · rw [← hx.1]; exact hc
    · rw [popFor, if_neg hc] at h
      cases hp : popFor q s with
      | none => rw [hp] at h; cases h
      | some p =>
        obtain ⟨y, q2'⟩ := p
        rw [hp] at h
        have hy : y = e ∧ x :: q2' = q' := by
          have h1 := congrArg (fun o => Option.map Prod.fst o) h
          have h2 := congrArg (fun o => Option.map Prod.snd o) h
          simp at h1 h2
          exact ⟨h1, h2⟩
        obtain ⟨q1, q2, ha, hb, hnf, hes⟩ := ih q2' (by rw [hp, hy.1])
        refine ⟨x :: q1, q2, ?_, ?_, ?_, hes⟩
        · rw [List.cons_append, ← ha]
        · rw [← hy.2, hb]; rfl
        · intro z hz
          rcases List.mem_cons.1 hz with h1 | h2
          · rw [h1]; exact hc
          · exact hnf z h2

theorem entriesVia_purgeKey_nil (q : List PEntry) (k' : Key) (s' s : Nat)
    (sb : Sub) (k : Key) (h : entriesVia q s sb k = []) :
    entriesVia (purgeKey q k' s') s sb k = [] := by
  induction q with
  | nil => rfl
  | cons e q ih =>
    by_cases hm : e.sink = s ∧ e.sub = sb ∧ e.key = k
    · rw [entriesVia, if_pos hm] at h
      cases h
    · rw [entriesVia, if_neg hm] at h
      by_cases hp : e.sink = s' ∧ e.key = k'
      · rw [purgeKey, if_pos hp]
        exact ih h
      · rw [purgeKey, if_neg hp, entriesVia, if_neg hm]
        exact ih h

theorem entriesVia_purgeColl_nil (q : List PEntry) (c' : String) (s' s : Nat)
    (sb : Sub) (k : Key) (h : entriesVia q s sb k = []) :
    entriesVia (purgeColl q c' s') s sb k = [] := by
  induction q with
  | nil => rfl
  | cons e q ih =>
    by_cases hm : e.sink = s ∧ e.sub = sb ∧ e.key = k
    · rw [entriesVia, if_pos hm] at h
      cases h
    · rw [entriesVia, if_neg hm] at h
      by_cases hp : e.sink = s' ∧ e.key.coll = c'
      · rw [purgeColl, if_pos hp]
        exact ih h
      · rw [purgeColl, if_neg hp, entriesVia, if_neg hm]
        exact ih h

theorem applyEntry_fields (st : WState) (k' : Key) (r : Int) :
    (applyEntry st k' r).log = st.log ∧
    (applyEntry st k' r).cursor = st.cursor ∧
    (applyEntry st k' r).pointSubs = st.pointSubs ∧
    (applyEntry st k' r).collSubs = st.collSubs ∧
    (applyEntry st k' r).delivered = st.delivered := by
  by_cases hc : lookupRev st.current k' = some r
  · rw [applyEntry, if_pos hc]
    exact ⟨rfl, rfl, rfl, rfl, rfl⟩
  · rw [applyEntry, if_neg hc]
    exact ⟨rfl, rfl, rfl, rfl, rfl⟩

theorem applyRec_fields (es : List (Key × Int)) : ∀ (st : WState),
    (applyRec st es).log = st.log ∧
    (applyRec st es).cursor = st.cursor ∧
    (applyRec st es).pointSubs = st.pointSubs ∧
    (applyRec st es).collSubs = st.collSubs ∧
    (applyRec st es).delivered = st.delivered := by
  induction es with
  | nil => exact fun st => ⟨rfl, rfl, rfl, rfl, rfl⟩
  | cons p es ih =>
    intro st
    obtain ⟨k', r⟩ := p
    have h1 := applyEntry_fields st k' r
    have h2 := ih (applyEntry st k' r)
    rw [applyRec_cons]
    exact ⟨h2.1.trans h1.1, h2.2.1.trans h1.2.1, h2.2.2.1.trans h1.2.2.1,
      h2.2.2.2.1.trans h1.2.2.2.1, h2.2.2.2.2.trans h1.2.2.2.2⟩

theorem applyRecs_fields (rcs : List (List (Key × Int))) : ∀ (st : WState),
    (applyRecs st rcs).log = st.log ∧
    (applyRecs st rcs).cursor = st.cursor ∧
    (applyRecs st rcs).pointSubs = st.pointSubs ∧
    (applyRecs st rcs).collSubs = st.collSubs ∧
    (applyRecs st rcs).delivered = st.delivered := by
  induction rcs with
  | nil => exact fun st => ⟨rfl, rfl, rfl, rfl, rfl⟩
  | cons rc rcs ih =>
    intro st
    have h1 := applyRec_fields rc st
    have h2 := ih (applyRec st rc)
    exact ⟨h2.1.trans h1.1, h2.2.1.trans h1.2.1, h2.2.2.1.trans h1.2.2.1,
      h2.2.2.2.1.trans h1.2.2.2.1, h2.2.2.2.2.trans h1.2.2.2.2⟩

theorem syncStep_fields (st : WState) :
    (syncStep st).log = st.log ∧
    (syncStep st).cursor = st.log.length ∧
    (syncStep st).pointSubs = st.pointSubs ∧
    (syncStep st).collSubs = st.collSubs ∧
    (syncStep st).delivered = st.delivered := by
  have h := applyRecs_fields (st.log.drop st.cursor) st
  exact ⟨h.1, rfl, h.2.2.1, h.2.2.2.1, h.2.2.2.2⟩

theorem watchStep_cases (st : WState) (k' : Key) (known : Int) (s' : Nat) :
    (watchStep st k' known s').delivered = st.delivered ∧
    (watchStep st k' known s').collSubs = st.collSubs ∧
    ((watchStep st k' known s').pointSubs = st.pointSubs ∨
     (watchStep st k' known s').pointSubs = st.pointSubs ++ [(k', s')]) ∧
    ((watchStep st k' known s').pending = st.pending ∨
     ∃ c, (watchStep st k' known s').pending
        = enqueue st.pending ⟨s', Sub.point k', k', c⟩) := by
  by_cases h1 : hasPair st.pointSubs k' s' = true
  · have hw : watchStep st k' known s' = st := by
      simp [watchStep, h1]
    rw [hw]
    exact ⟨rfl, rfl, Or.inl rfl, Or.inl rfl⟩
  · cases hl : lookupRev st.current k' with
    | none =>
      have hw : watchStep st k' known s'
          = { st with pointSubs := st.pointSubs ++ [(k', s')] } := by
        simp [watchStep, h1, hl]
      rw [hw]
      exact ⟨rfl, rfl, Or.inr rfl, Or.inl rfl⟩
    | some c =>
      by_cases h2 : known < c ∨ (c = -1 ∧ 0 ≤ known)
      · have hw : watchStep st k' known s'
            = { st with pointSubs := st.pointSubs ++ [(k', s')]
                        pending := enqueue st.pending ⟨s', Sub.point k', k', c⟩ } := by
          simp [watchStep, h1, hl, h2]
        rw [hw]
        exact ⟨rfl, rfl, Or.inr rfl, Or.inr ⟨c, rfl⟩⟩
      · have hw : watchStep st k' known s'
            = { st with pointSubs := st.pointSubs ++ [(k', s')] } := by
          simp [watchStep, h1, hl, h2]
        rw [hw]
        exact ⟨rfl, rfl, Or.inr rfl, Or.inl rfl⟩

theorem watchCollStep_cases (st : WState) (c' : String) (s' : Nat) :
    (watchCollStep st c' s').delivered = st.delivered ∧
    (watchCollStep st c' s').pointSubs = st.pointSubs ∧
    (watchCollStep st c' s').pending = st.pending ∧
    ((watchCollStep st c' s').collSubs = st.collSubs ∨
     (watchCollStep st c' s').collSubs = st.collSubs ++ [(c', s')]) := by
  by_cases h1 : hasColl st.collSubs c' s' = true
  · have hw : watchCollStep st c' s' = st := by
      simp [watchCollStep, h1]
    rw [hw]
    exact ⟨rfl, rfl, rfl, Or.inl rfl⟩
  · have hw : watchCollStep st c' s'
        = { st with collSubs := st.collSubs ++ [(c', s')] } := by
      simp [watchCollStep, h1]
    rw [hw]
    exact ⟨rfl, rfl, rfl, Or.inr rfl⟩

theorem entriesVia_enqueuePoint_skip (ss : List Nat) (q : List PEntry)
    (k' : Key) (r : Int) (s : Nat) (k : Key) (h : k' = k → ¬ s ∈ ss) :
    entriesVia (enqueuePoint q ss k' r) s (Sub.point k) k
      = entriesVia q s (Sub.point k) k := by
  induction ss generalizing q with
  | nil => rfl
  | cons s0 ss ih =>
    rw [enqueuePoint]
    rw [ih _ fun hk hm => h hk (List.mem_cons.2 (Or.inr hm))]
    apply entriesVia_enqueue_ne
    intro hm
    have hk : k' = k := by injection hm.2.1
    exact h hk (List.mem_cons.2 (Or.inl hm.1.symm))

theorem entriesVia_enqueueColl_point (cs : List Nat) (q : List PEntry)
    (k' : Key) (r : Int) (s : Nat) (k : Key) :
    entriesVia (enqueueColl q cs k' r) s (Sub.point k) k
      = entriesVia q s (Sub.point k) k := by
  induction cs generalizing q with
  | nil => rfl
  | cons s0 cs ih =>
    rw [enqueueColl, ih]
    apply entriesVia_enqueue_ne
    intro hm
    exact absurd hm.2.1 (by simp)

theorem entriesVia_enqueuePoint_coll (ss : List Nat) (q : List PEntry)
    (k' : Key) (r : Int) (s : Nat) (c : String) (k : Key) :
    entriesVia (enqueuePoint q ss k' r) s (Sub.coll c) k
      = entriesVia q s (Sub.coll c) k := by
  induction ss generalizing q with
  | nil => rfl
  | cons s0 ss ih =>
    rw [enqueuePoint, ih]
    apply entriesVia_enqueue_ne
    intro hm
    exact absurd hm.2.1 (by simp)

theorem entriesVia_enqueueColl_skip (cs : List Nat) (q : List PEntry)
    (k' : Key) (r : Int) (s : Nat) (c : String) (k : Key)
    (h : k'.coll = c → ¬ s ∈ cs) :
    entriesVia (enqueueColl q cs k' r) s (Sub.coll c) k
      = entriesVia q s (Sub.coll c) k := by
  induction cs generalizing q with
  | nil => rfl
  | cons s0 cs ih =>
    rw [enqueueColl]
    rw [ih _ fun hk hm => h hk (List.mem_cons.2 (Or.inr hm))]
    apply entriesVia_enqueue_ne
    intro hm
    have hk : k'.coll = c := by injection hm.2.1
    exact h hk (List.mem_cons.2 (Or.inl hm.1.symm))

theorem pendVia_applyEntry_point (st : WState) (k' : Key) (r : Int)
    (s : Nat) (k : Key) (h : hasPair st.pointSubs k s = false) :
    entriesVia (applyEntry st k' r).pending s (Sub.point k) k
      = entriesVia st.pending s (Sub.point k) k := by
  by_cases hc : lookupRev st.current k' = some r
  · rw [applyEntry, if_pos hc]
  · have hp : (applyEntry st k' r).pending
        = enqueueColl (enqueuePoint st.pending (subsFor st.pointSubs k') k' r)
            (collsFor st.collSubs k'.coll) k' r := by
      rw [applyEntry, if_neg hc]
    rw [hp, entriesVia_enqueueColl_point, entriesVia_enqueuePoint_skip]
    intro hk hm
    subst hk
    have hx := (mem_subsFor st.pointSubs k' s).1 hm
    rw [h] at hx
    exact Bool.noConfusion hx

theorem pendVia_applyRec_point (es : List (Key × Int)) : ∀ (st : WState)
    (s : Nat) (k : Key), hasPair st.pointSubs k s = false →
    entriesVia (applyRec st es).pending s (Sub.point k) k
      = entriesVia st.pending s (Sub.point k) k := by
  induction es with
  | nil => exact fun st s k _ => rfl
  | cons p es ih =>
    intro st s k h
    obtain ⟨k', r⟩ := p
    rw [applyRec_cons]
    rw [ih (applyEntry st k' r) s k (by
      rw [(applyEntry_fields st k' r).2.2.1]
      exact h)]
    exact pendVia_applyEntry_point st k' r s k h

theorem pendVia_applyRecs_point (rcs : List (List (Key × Int))) :
    ∀ (st : WState) (s : Nat) (k : Key),
    hasPair st.pointSubs k s = false →
    entriesVia (applyRecs st rcs).pending s (Sub.point k) k
      = entriesVia st.pending s (Sub.point k) k := by
  induction rcs with
  | nil => exact fun st s k _ => rfl
  | cons rc rcs ih =>
    intro st s k h
    rw [show applyRecs st (rc :: rcs) = applyRecs (applyRec st rc) rcs from rfl]
    rw [ih (applyRec st rc) s k (by
      rw [(applyRec_fields rc st).2.2.1]
      exact h)]
    exact pendVia_applyRec_point rc st s k h

theorem pendVia_applyEntry_coll (st : WState) (k' : Key) (r : Int)
    (s : Nat) (c : String) (k : Key)
    (h : hasColl st.collSubs c s = false) :
    entriesVia (applyEntry st k' r).pending s (Sub.coll c) k
      = entriesVia st.pending s (Sub.coll c) k := by
  by_cases hc : lookupRev st.current k' = some r
  · rw [applyEntry, if_pos hc]
  · have hp : (applyEntry st k' r).pending
        = enqueueColl (enqueuePoint st.pending (subsFor st.pointSubs k') k' r)
            (collsFor st.collSubs k'.coll) k' r := by
      rw [applyEntry, if_neg hc]
    rw [hp]
    rw [entriesVia_enqueueColl_skip _ _ _ _ _ _ _ (by
      intro hk hm
      subst hk
      have hx := (mem_collsFor st.collSubs k'.coll s).1 hm
      rw [h] at hx
      exact Bool.noConfusion hx)]
    exact entriesVia_enqueuePoint_coll _ _ _ _ _ _ _

theorem pendVia_applyRec_coll (es : List (Key × Int)) : ∀ (st : WState)
    (s : Nat) (c : String) (k : Key),
    hasColl st.collSubs c s = false →
    entriesVia (applyRec st es).pending s (Sub.coll c) k
      = entriesVia st.pending s (Sub.coll c) k := by
  induction es with
  | nil => exact fun st s c k _ => rfl
  | cons p es ih =>
    intro st s c k h
    obtain ⟨k', r⟩ := p
    rw [applyRec_cons]
    rw [ih (applyEntry st k' r) s c k (by
      rw [(applyEntry_fields st k' r).2.2.2.1]
      exact h)]
    exact pendVia_applyEntry_coll st k' r s c k h

theorem pendVia_applyRecs_coll (rcs : List (List (Key × Int))) :
    ∀ (st : WState) (s : Nat) (c : String) (k : Key),
    hasColl st.collSubs c s = false →
    entriesVia (applyRecs st rcs).pending s (Sub.coll c) k
      = entriesVia st.pending s (Sub.coll c) k := by
  induction rcs with
  | nil => exact fun st s c k _ => rfl
  | cons rc rcs ih =>
    intro st s c k h
    rw [show applyRecs st (rc :: rcs) = applyRecs (applyRec st rc) rcs from rfl]
    rw [ih (applyRec st rc) s c k (by
      rw [(applyRec_fields rc st).2.2.2.1]
      exact h)]
    exact pendVia_applyRec_coll rc st s c k h

theorem hasColl_append_one (cs : List (String × Nat)) (c : String) (s : Nat)
    (c2 : String) (s2 : Nat) :
    hasColl (cs ++ [(c, s)]) c2 s2
      = (hasColl cs c2 s2 || decide (c = c2 ∧ s = s2)) := by
  induction cs with
  | nil =>
    by_cases hc : c = c2 ∧ s = s2
    · simp [hasColl, hc]
    · simp [hasColl, hc]
  | cons p cs ih =>
    obtain ⟨c', s'⟩ := p
    by_cases hx : c' = c2 ∧ s' = s2
    · simp only [List.cons_append, hasColl, if_pos hx, Bool.true_or]
    · simp only [List.cons_append, hasColl, if_neg hx, List.append_eq, ih]

/-- Helper for C2: once the point subscription `(k, s)` is absent and
its queue slot is empty, a trace that never re-subscribes it delivers
nothing further via that subscription. -/
theorem delivVia_point_frozen (tr : List Event) : ∀ (st : WState) (k : Key)
    (s : Nat), hasPair st.pointSubs k s = false →
    entriesVia st.pending s (Sub.point k) k = [] →
    countWatch tr k s = 0 →
    entriesVia (runFrom st tr).delivered s (Sub.point k) k
      = entriesVia st.delivered s (Sub.point k) k := by
  induction tr with
  | nil => exact fun st k s _ _ _ => rfl
  | cons e tr ih =>
    intro st k s hsub hpend hcnt
    cases e with
    | commit rc =>
      exact ih _ k s hsub hpend hcnt
    | sync =>
      have hf := syncStep_fields st
      have hpd : entriesVia (syncStep st).pending s (Sub.point k) k = [] := by
        have hx : entriesVia (applyRecs st (st.log.drop st.cursor)).pending s
            (Sub.point k) k = entriesVia st.pending s (Sub.point k) k :=
          pendVia_applyRecs_point _ st s k hsub
        exact hx.trans hpend
      have hthis := ih (syncStep st) k s (by rw [hf.2.2.1]; exact hsub) hpd hcnt
      rw [hf.2.2.2.2] at hthis
      exact hthis
    | watch k' known s' =>
      obtain ⟨hd, hcs, hps, hpd⟩ := watchStep_cases st k' known s'
      have hcnt2 : ¬(k' = k ∧ s' = s) ∧ countWatch tr k s = 0 := by
        by_cases hx : k' = k ∧ s' = s
        · exfalso
          have hb := hcnt
          simp [countWatch, hx] at hb
        · exact ⟨hx, by simpa [countWatch, hx] using hcnt⟩
      have hsub' : hasPair (watchStep st k' known s').pointSubs k s = false := by
        rcases hps with h | h
        · rw [h]; exact hsub
        · rw [h, hasPair_append_one, hsub]
          simp [hcnt2.1]
      have hpend' : entriesVia (watchStep st k' known s').pending s
          (Sub.point k) k = [] := by
        rcases hpd with h | ⟨c, h⟩
        · rw [h]; exact hpend
        · rw [h, entriesVia_enqueue_ne]
          · exact hpend
          · intro hm
            have hk : k' = k := by injection hm.2.1
            exact hcnt2.1 ⟨hk, hm.1⟩
      have hthis := ih (watchStep st k' known s') k s hsub' hpend' hcnt2.2
      rw [hd] at hthis
      exact hthis
    | unwatch k' s' =>
      have hsub' : hasPair (removePair st.pointSubs k' s') k s = false := by
        by_cases hx : k = k' ∧ s = s'
        · rw [hx.1, hx.2, hasPair_removePair_self]
        · rw [hasPair_removePair_ne st.pointSubs k' s' k s hx]
          exact hsub
      have hpend' := entriesVia_purgeKey_nil st.pending k' s' s (Sub.point k)
        k hpend
      exact ih (unwatchStep st k' s') k s hsub' hpend' hcnt
    | watchColl c' s' =>
      obtain ⟨hd, hps, hpd, hcs⟩ := watchCollStep_cases st c' s'
      have hthis := ih (watchCollStep st c' s') k s (by rw [hps]; exact hsub)
        (by rw [hpd]; exact hpend) hcnt
      rw [hd] at hthis
      exact hthis
    | unwatchColl c' s' =>
      have hpend' := entriesVia_purgeColl_nil st.pending c' s' s (Sub.point k)
        k hpend
      exact ih (unwatchCollStep st c' s') k s hsub hpend' hcnt
    | deliver s' =>
      cases hp : popFor st.pending s' with
      | none =>
        have hds : deliverStep st s' = st := by rw [deliverStep, hp]
        rw [show runFrom st (Event.deliver s' :: tr)
            = runFrom (deliverStep st s') tr from rfl, hds]
        exact ih st k s hsub hpend hcnt
      | some p =>
        obtain ⟨e, q⟩ := p
        obtain ⟨q1, q2, hq, hq', hnf, hes⟩ := popFor_split st.pending s' e q hp
        have hsplit : entriesVia q1 s (Sub.point k) k = []
            ∧ entriesVia (e :: q2) s (Sub.point k) k = [] := by
          have hql : entriesVia (q1 ++ e :: q2) s (Sub.point k) k = [] := by
            rw [← hq]; exact hpend
          rw [entriesVia_append] at hql
          exact List.append_eq_nil.1 hql
        have hnm : ¬(e.sink = s ∧ e.sub = Sub.point k ∧ e.key = k) := by
          intro hm
          have h2 := hsplit.2
          rw [entriesVia, if_pos hm] at h2
          cases h2
        have h3 : entriesVia q2 s (Sub.point k) k = [] := by
          have h2 := hsplit.2
          rw [entriesVia, if_neg hnm] at h2
          exact h2
        have hpend' : entriesVia q s (Sub.point k) k = [] := by
          rw [hq', entriesVia_append, hsplit.1, h3]
          rfl
        have hds : deliverStep st s'
            = { st with pending := q, delivered := st.delivered ++ [e] } := by
          rw [deliverStep, hp]
        rw [show runFrom st (Event.deliver s' :: tr)
            = runFrom (deliverStep st s') tr from rfl, hds]
        have hthis := ih { st with pending := q, delivered := st.delivered ++ [e] } k s hsub hpend' hcnt
        rw [hthis]
        show entriesVia (st.delivered ++ [e]) s (Sub.point k) k
          = entriesVia st.delivered s (Sub.point k) k
        rw [entriesVia_append_one, if_neg hnm]
        simp

/-- Helper for C2: once the collection subscription `(c, s)` is absent
and the queue slots of its keys are empty, a trace that never
re-subscribes it delivers nothing further via that subscription. -/
theorem delivVia_coll_frozen (tr : List Event) : ∀ (st : WState)
    (c : String) (s : Nat) (k : Key), hasColl st.collSubs c s = false →
    entriesVia st.pending s (Sub.coll c) k = [] →
    countWatchColl tr c s = 0 →
    entriesVia (runFrom st tr).delivered s (Sub.coll c) k
      = entriesVia st.delivered s (Sub.coll c) k := by
  induction tr with
  | nil => exact fun st c s k _ _ _ => rfl
  | cons e tr ih =>
    intro st c s k hsub hpend hcnt
    cases e with
    | commit rc =>
      exact ih _ c s k hsub hpend hcnt
    | sync =>
      have hf := syncStep_fields st
      have hpd : entriesVia (syncStep st).pending s (Sub.coll c) k = [] := by
        have hx : entriesVia (applyRecs st (st.log.drop st.cursor)).pending s
            (Sub.coll c) k = entriesVia st.pending s (Sub.coll c) k :=
          pendVia_applyRecs_coll _ st s c k hsub
        exact hx.trans hpend
      have hthis := ih (syncStep st) c s k (by rw [hf.2.2.2.1]; exact hsub)
        hpd hcnt
      rw [hf.2.2.2.2] at hthis
      exact hthis
    | watch k' known s' =>
      obtain ⟨hd, hcs, hps, hpd⟩ := watchStep_cases st k' known s'
      have hsub' : hasColl (watchStep st k' known s').collSubs c s = false := by
        rw [hcs]; exact hsub
      have hpend' : entriesVia (watchStep st k' known s').pending s
          (Sub.coll c) k = [] := by
        rcases hpd with h | ⟨cc, h⟩
        · rw [h]; exact hpend
        · rw [h, entriesVia_enqueue_ne]
          · exact hpend
          · intro hm
            exact absurd hm.2.1 (by simp)
      have hthis := ih (watchStep st k' known s') c s k hsub' hpend' hcnt
      rw [hd] at hthis
      exact hthis
    | unwatch k' s' =>
      have hpend' := entriesVia_purgeKey_nil st.pending k' s' s (Sub.coll c)
        k hpend
      exact ih (unwatchStep st k' s') c s k hsub hpend' hcnt
    | watchColl c' s' =>
      obtain ⟨hd, hps, hpd, hcs⟩ := watchCollStep_cases st c' s'
      have hcnt2 : ¬(c' = c ∧ s' = s) ∧ countWatchColl tr c s = 0 := by
        by_cases hx : c' = c ∧ s' = s
        · exfalso
          have hb := hcnt
          simp [countWatchColl, hx] at hb
        · exact ⟨hx, by simpa [countWatchColl, hx] using hcnt⟩
      have hsub' : hasColl (watchCollStep st c' s').collSubs c s = false := by
        rcases hcs with h | h
        · rw [h]; exact hsub
        · rw [h, hasColl_append_one, hsub]
          simp [hcnt2.1]
      have hthis := ih (watchCollStep st c' s') c s k hsub'
        (by rw [hpd]; exact hpend) hcnt2.2
      rw [hd] at hthis
      exact hthis
    | unwatchColl c' s' =>
      have hsub' : hasColl (removeColl st.collSubs c' s') c s = false := by
        by_cases hx : c = c' ∧ s = s'
        · rw [hx.1, hx.2, hasColl_removeColl_self]
        · rw [hasColl_removeColl_ne st.collSubs c' s' c s hx]
          exact hsub
      have hpend' := entriesVia_purgeColl_nil st.pending c' s' s (Sub.coll c)
        k hpend
      exact ih (unwatchCollStep st c' s') c s k hsub' hpend' hcnt
    | deliver s' =>
      cases hp : popFor st.pending s' with
      | none =>
        have hds : deliverStep st s' = st := by rw [deliverStep, hp]
        rw [show runFrom st (Event.deliver s' :: tr)
            = runFrom (deliverStep st s') tr from rfl, hds]
        exact ih st c s k hsub hpend hcnt
      | some p =>
        obtain ⟨e, q⟩ := p
        obtain ⟨q1, q2, hq, hq', hnf, hes⟩ := popFor_split st.pending s' e q hp
        have hsplit : entriesVia q1 s (Sub.coll c) k = []
            ∧ entriesVia (e :: q2) s (Sub.coll c) k = [] := by
          have hql : entriesVia (q1 ++ e :: q2) s (Sub.coll c) k = [] := by
            rw [← hq]; exact hpend
          rw [entriesVia_append] at hql
          exact List.append_eq_nil.1 hql
        have hnm : ¬(e.sink = s ∧ e.sub = Sub.coll c ∧ e.key = k) := by
          intro hm
          have h2 := hsplit.2
          rw [entriesVia, if_pos hm] at h2
          cases h2
        have h3 : entriesVia q2 s (Sub.coll c) k = [] := by
          have h2 := hsplit.2
          rw [entriesVia, if_neg hnm] at h2
          exact h2
        have hpend' : entriesVia q s (Sub.coll c) k = [] := by
          rw [hq', entriesVia_append, hsplit.1, h3]
          rfl
        have hds : deliverStep st s'
            = { st with pending := q, delivered := st.delivered ++ [e] } := by
          rw [deliverStep, hp]
        rw [show runFrom st (Event.deliver s' :: tr)
            = runFrom (deliverStep st s') tr from rfl, hds]
        have hthis := ih { st with pending := q, delivered := st.delivered ++ [e] } c s k hsub hpend' hcnt
        rw [hthis]
        show entriesVia (st.delivered ++ [e]) s (Sub.coll c) k
          = entriesVia st.delivered s (Sub.coll c) k
        rw [entriesVia_append_one, if_neg hnm]
        simp

/-! ### Claim C2 -/

/-- Counterexample to claim C2 as stated: sink 0 holds a collection
subscription on `"c"` and a point subscription on key `("c", "a")`;
after `Unwatch(("c", "a"), 0)` has been processed, a change to that very
key is still delivered to sink 0 — through the remaining collection
subscription — so a Change for the unwatched `(key, sink)` pair does
arrive after the Unwatch. -/
theorem unwatchStillDeliversViaCollection :
    (runTrace [] [Event.watchColl "c" 0, Event.watch ⟨"c", "a"⟩ (-1) 0,
        Event.unwatch ⟨"c", "a"⟩ 0, Event.commit [(⟨"c", "a"⟩, 5)],
        Event.sync, Event.deliver 0]).delivered
      = [⟨0, Sub.coll "c", ⟨"c", "a"⟩, 5⟩] := by decide

/-- Claim C2 (corrected): after `Unwatch(key, sink)` is processed, the
pending Changes of that pair are purged together with the subscription
and no Change is ever delivered *via that subscription* afterwards, as
long as the pair is not re-subscribed — and likewise for
`UnwatchCollection(collection, sink)`; however the same sink may still
receive Changes for the key through another subscription it holds (see
the counterexample). -/
theorem unwatchedSubDeliversNothing (st : WState) (tr : List Event)
    (k : Key) (c : String) (s : Nat)
    (hw : countWatch tr k s = 0) (hwc : countWatchColl tr c s = 0) :
    (pendVia (unwatchStep st k s) s (Sub.point k) k = [] ∧
     delivVia (runFrom (unwatchStep st k s) tr) s (Sub.point k) k
       = delivVia st s (Sub.point k) k) ∧
    (∀ k2, k2.coll = c →
      pendVia (unwatchCollStep st c s) s (Sub.coll c) k2 = [] ∧
      delivVia (runFrom (unwatchCollStep st c s) tr) s (Sub.coll c) k2
        = delivVia st s (Sub.coll c) k2) := by
  constructor
  · constructor
    · exact entriesVia_purgeKey_self st.pending k s (Sub.point k)
    · exact delivVia_point_frozen tr (unwatchStep st k s) k s
        (hasPair_removePair_self st.pointSubs k s)
        (entriesVia_purgeKey_self st.pending k s (Sub.point k)) hw
  · intro k2 hk2
    constructor
    · exact entriesVia_purgeColl_self st.pending c s (Sub.coll c) k2 hk2
    · exact delivVia_coll_frozen tr (unwatchCollStep st c s) c s k2
        (hasColl_removeColl_self st.collSubs c s)
        (entriesVia_purgeColl_self st.pending c s (Sub.coll c) k2 hk2) hwc

/-- Witness for C2 (amended): a watcher with a point subscription on
`("c", "a")` and a collection subscription on `"c"`, both on sink 0,
with one Change pending for each; after Unwatch and UnwatchCollection,
a further commit, a sync and two delivery attempts, nothing was
delivered via either removed subscription. -/
theorem unwatchedSubDeliversNothingWitness :
    pendVia (unwatchStep (runTrace [] [Event.watchColl "c" 0,
        Event.watch ⟨"c", "a"⟩ (-1) 0, Event.commit [(⟨"c", "a"⟩, 5)],
        Event.sync]) ⟨"c", "a"⟩ 0) 0 (Sub.point ⟨"c", "a"⟩) ⟨"c", "a"⟩
      = [] ∧
    delivVia (runFrom (unwatchStep (runTrace [] [Event.watchColl "c" 0,
        Event.watch ⟨"c", "a"⟩ (-1) 0, Event.commit [(⟨"c", "a"⟩, 5)],
        Event.sync]) ⟨"c", "a"⟩ 0) [Event.commit [(⟨"c", "a"⟩, 6)],
        Event.sync, Event.deliver 0, Event.deliver 0]) 0
        (Sub.point ⟨"c", "a"⟩) ⟨"c", "a"⟩
      = delivVia (runTrace [] [Event.watchColl "c" 0,
        Event.watch ⟨"c", "a"⟩ (-1) 0, Event.commit [(⟨"c", "a"⟩, 5)],
        Event.sync]) 0 (Sub.point ⟨"c", "a"⟩) ⟨"c", "a"⟩ ∧
    delivVia (runFrom (unwatchCollStep (runTrace [] [Event.watchColl "c" 0,
        Event.watch ⟨"c", "a"⟩ (-1) 0, Event.commit [(⟨"c", "a"⟩, 5)],
        Event.sync]) "c" 0) [Event.commit [(⟨"c", "a"⟩, 6)],
        Event.sync, Event.deliver 0, Event.deliver 0]) 0
        (Sub.coll "c") ⟨"c", "a"⟩
      = delivVia (runTrace [] [Event.watchColl "c" 0,
        Event.watch ⟨"c", "a"⟩ (-1) 0, Event.commit [(⟨"c", "a"⟩, 5)],
        Event.sync]) 0 (Sub.coll "c") ⟨"c", "a"⟩ :=
  ⟨(unwatchedSubDeliversNothing (runTrace [] [Event.watchColl "c" 0,
      Event.watch ⟨"c", "a"⟩ (-1) 0, Event.commit [(⟨"c", "a"⟩, 5)],
      Event.sync]) [Event.commit [(⟨"c", "a"⟩, 6)], Event.sync,
      Event.deliver 0, Event.deliver 0] ⟨"c", "a"⟩ "c" 0 (by decide)
      (by decide)).1.1,
   (unwatchedSubDeliversNothing (runTrace [] [Event.watchColl "c" 0,
      Event.watch ⟨"c", "a"⟩ (-1) 0, Event.commit [(⟨"c", "a"⟩, 5)],
      Event.sync]) [Event.commit [(⟨"c", "a"⟩, 6)], Event.sync,
      Event.deliver 0, Event.deliver 0] ⟨"c", "a"⟩ "c" 0 (by decide)
      (by decide)).1.2,
   ((unwatchedSubDeliversNothing (runTrace [] [Event.watchColl "c" 0,
      Event.watch ⟨"c", "a"⟩ (-1) 0, Event.commit [(⟨"c", "a"⟩, 5)],
      Event.sync]) [Event.commit [(⟨"c", "a"⟩, 6)], Event.sync,
      Event.deliver 0, Event.deliver 0] ⟨"c", "a"⟩ "c" 0 (by decide)
      (by decide)).2 ⟨"c", "a"⟩ rfl).2⟩

/-! ### Claim C4 -/

theorem entriesVia_enqueue_self (q : List PEntry) (s : Nat) (sb : Sub)
    (k : Key) (r : Int) (h : entriesVia q s sb k = []) :
    entriesVia (enqueue q ⟨s, sb, k, r⟩) s sb k = [r] := by
  have happ : enqueue q ⟨s, sb, k, r⟩ = q ++ [⟨s, sb, k, r⟩] := by
    apply enqueue_eq_append
    intro x hx hm
    have hmm := revno_mem_entriesVia q x s sb k hx hm.1 hm.2.1 hm.2.2
    rw [h] at hmm
    cases hmm
  rw [happ, entriesVia_append_one, h]
  simp

/-- Counterexample to claim C4 as stated: first, with `current[key]`
populated at revno 1 and `knownRevno = 2` — values that differ — the
claim demands an initial Change, but `Watch` enqueues nothing (this is
exactly the situation of TestDoubleUpdate, whose `assertNoChange` the
claimed behaviour would break); second, with `current[key]` absent and
the document existing at revno 5 while `knownRevno = -1`, the claimed
direct-lookup policy demands an initial Change `{…, 5}`, but `Watch`
enqueues nothing (the situation of TestIgnoreAncientHistory, whose
`assertNoChange` the claimed behaviour would break). -/
theorem watchPolicyCounterexample :
    (lookupRev (runTrace [] [Event.commit [(⟨"test", "a"⟩, 1)],
        Event.sync]).current ⟨"test", "a"⟩ = some 1 ∧
     (1 : Int) ≠ 2 ∧
     (watchStep (runTrace [] [Event.commit [(⟨"test", "a"⟩, 1)],
        Event.sync]) ⟨"test", "a"⟩ 2 0).pending = []) ∧
    (lookupRev (initState [[(⟨"test", "a"⟩, 5)]]).current ⟨"test", "a"⟩
        = none ∧
     keyRevs (initState [[(⟨"test", "a"⟩, 5)]]).log ⟨"test", "a"⟩ = [5] ∧
     (5 : Int) ≠ -1 ∧
     (watchStep (initState [[(⟨"test", "a"⟩, 5)]]) ⟨"test", "a"⟩ (-1)
        0).pending = []) := by decide

/-- Claim C4 (corrected): the initial Change enqueued by
`Watch(key, knownRevno, sink)` for a fresh `(key, sink)` subscription
with nothing pending in its slot: when `current[key]` is absent no
lookup is performed and nothing is enqueued; when `current[key] = c`, an
initial Change carrying revno `c` is enqueued iff `c > knownRevno` or
(`c = -1` and `knownRevno ≥ 0`) — not iff the two merely differ. -/
theorem watchInitialChangePolicy (st : WState) (k : Key) (known : Int)
    (s : Nat)
    (hns : hasPair st.pointSubs k s = false)
    (h0 : pendVia st s (Sub.point k) k = []) :
    (lookupRev st.current k = none →
      (watchStep st k known s).pending = st.pending) ∧
    (∀ c, lookupRev st.current k = some c →
      ((known < c ∨ (c = -1 ∧ 0 ≤ known)) →
        pendVia (watchStep st k known s) s (Sub.point k) k = [c]) ∧
      (¬(known < c ∨ (c = -1 ∧ 0 ≤ known)) →
        (watchStep st k known s).pending = st.pending)) := by
  refine ⟨?_, ?_⟩
  · intro hnone
    simp [watchStep, hns, hnone]
  · intro c hc
    refine ⟨?_, ?_⟩
    · intro hcond
      have hpend : (watchStep st k known s).pending
          = enqueue st.pending ⟨s, Sub.point k, k, c⟩ := by
        simp [watchStep, hns, hc, hcond]
      show entriesVia (watchStep st k known s).pending s (Sub.point k) k = [c]
      rw [hpend]
      exact entriesVia_enqueue_self st.pending s (Sub.point k) k c h0
    · intro hncond
      simp [watchStep, hns, hc, hncond]

/-- Witness for C4 (amended): on a watcher tracking `("test", "a")` at
revno 3, a fresh subscription with known revno -1 is owed the initial
Change with revno 3, and one with known revno 4 is owed nothing. -/
theorem watchInitialChangePolicyWitness :
    pendVia (watchStep (runTrace [] [Event.commit [(⟨"test", "a"⟩, 3)],
        Event.sync]) ⟨"test", "a"⟩ (-1) 0) 0 (Sub.point ⟨"test", "a"⟩)
        ⟨"test", "a"⟩ = [3] ∧
    (watchStep (runTrace [] [Event.commit [(⟨"test", "a"⟩, 3)],
        Event.sync]) ⟨"test", "a"⟩ 4 0).pending
      = (runTrace [] [Event.commit [(⟨"test", "a"⟩, 3)],
        Event.sync]).pending :=
  ⟨(((watchInitialChangePolicy (runTrace [] [Event.commit [(⟨"test", "a"⟩, 3)],
      Event.sync]) ⟨"test", "a"⟩ (-1) 0 (by decide) (by decide)).2 3
      (by decide)).1 (by decide)),
   (((watchInitialChangePolicy (runTrace [] [Event.commit [(⟨"test", "a"⟩, 3)],
      Event.sync]) ⟨"test", "a"⟩ 4 0 (by decide) (by decide)).2 3
      (by decide)).2 (by decide))⟩

/-! ### Claim C6 -/

/-- Claim C6 (confirmed): a document goes through revisions
`r1 < r2 < r3` (insert, update, update); the first is consumed before a
subscriber appears; a subscriber then calls Watch with known revno `r2`
(no initial Change is owed) and a sync consumes the two updates: exactly
one Change is delivered on the sink and it carries `r3`, with no Change
for `r1` or `r2` and nothing left pending. -/
theorem coalescedToLatestRevno (k : Key) (s : Nat) (r1 r2 r3 : Int)
    (h1 : -1 < r1) (h12 : r1 < r2) (h23 : r2 < r3) :
    ((runTrace [] [Event.commit [(k, r1)], Event.sync,
        Event.commit [(k, r2)], Event.commit [(k, r3)],
        Event.watch k r2 s, Event.sync, Event.deliver s]).delivered,
     (runTrace [] [Event.commit [(k, r1)], Event.sync,
        Event.commit [(k, r2)], Event.commit [(k, r3)],
        Event.watch k r2 s, Event.sync, Event.deliver s]).pending)
      = ([⟨s, Sub.point k, k, r3⟩], []) := by
  have hne12 : r1 ≠ r2 := ne_of_lt h12
  have hne23 : r2 ≠ r3 := ne_of_lt h23
  have hnlt : ¬ r2 < r1 := not_lt.2 (le_of_lt h12)
  have hn1 : r1 ≠ -1 := ne_of_gt h1
  simp [runTrace, runFrom, step, initState, syncStep, applyRecs, applyRec,
    applyEntry, lookupRev, setRev, subsFor, collsFor, enqueuePoint,
    enqueueColl, enqueue, watchStep, hasPair, deliverStep, popFor,
    List.drop, hne12, hne23, hnlt, hn1]

/-- Witness for C6: the scenario at revisions 1, 2, 3 on sink 0. -/
theorem coalescedToLatestRevnoWitness :
    ((runTrace [] [Event.commit [(⟨"test", "a"⟩, 1)], Event.sync,
        Event.commit [(⟨"test", "a"⟩, 2)], Event.commit [(⟨"test", "a"⟩, 3)],
        Event.watch ⟨"test", "a"⟩ 2 0, Event.sync,
        Event.deliver 0]).delivered,
     (runTrace [] [Event.commit [(⟨"test", "a"⟩, 1)], Event.sync,
        Event.commit [(⟨"test", "a"⟩, 2)], Event.commit [(⟨"test", "a"⟩, 3)],
        Event.watch ⟨"test", "a"⟩ 2 0, Event.sync,
        Event.deliver 0]).pending)
      = ([⟨0, Sub.point ⟨"test", "a"⟩, ⟨"test", "a"⟩, 3⟩], []) :=
  coalescedToLatestRevno ⟨"test", "a"⟩ 0 1 2 3 (by decide) (by decide)
    (by decide)

/-! ### Claim C8 -/

/-- Claim C8 (confirmed): while the watcher runs, `Err()` returns the
"still alive" sentinel and the Dead signal has not fired; after a clean
`Stop()`, `Stop` returns no error, `Err()` returns no error, and the
Dead signal is observable. -/
theorem errAndDeadLifecycle :
    errView Life.start = ErrView.stillAlive ∧
    deadFired Life.start = false ∧
    stopResult Life.start = none ∧
    errView (Life.stop Life.start) = ErrView.final none ∧
    deadFired (Life.stop Life.start) = true := by decide

/-! ### Support lemmas for Claim C1 -/

theorem keyRevs_append (a b : List (List (Key × Int))) (k : Key) :
    keyRevs (a ++ b) k = keyRevs a k ++ keyRevs b k := by
  induction a with
  | nil => rfl
  | cons rc a ih =>
    simp only [List.cons_append, keyRevs, List.append_eq, ih,
      List.append_assoc]

theorem lookupRev_setRev_self (l : List (Key × Int)) (k : Key) (r : Int) :
    lookupRev (setRev l k r) k = some r := by
  induction l with
  | nil => simp [setRev, lookupRev]
  | cons p l ih =>
    obtain ⟨k', r'⟩ := p
    by_cases hk : k' = k
    · rw [setRev, if_pos hk, lookupRev, if_pos rfl]
    · rw [setRev, if_neg hk, lookupRev, if_neg hk]
      exact ih

theorem lookupRev_setRev_ne (l : List (Key × Int)) (k' k : Key) (r : Int)
    (h : k' ≠ k) : lookupRev (setRev l k' r) k = lookupRev l k := by
  induction l with
  | nil => simp [setRev, lookupRev, h]
  | cons p l ih =>
    obtain ⟨k2, r2⟩ := p
    by_cases hk : k2 = k'
    · rw [setRev, if_pos hk, lookupRev, if_neg h, lookupRev, if_neg]
      rw [hk]
      exact h
    · rw [setRev, if_neg hk, lookupRev, lookupRev]
      by_cases h2 : k2 = k
      · rw [if_pos h2, if_pos h2]
      · rw [if_neg h2, if_neg h2, ih]

theorem entriesVia_enqueue_update (q : List PEntry) (s : Nat) (sb : Sub)
    (k : Key) (r : Int)
    (h : entriesVia q s sb k = [] ∨ ∃ c, entriesVia q s sb k = [c]) :
    entriesVia (enqueue q ⟨s, sb, k, r⟩) s sb k = [r] := by
  rcases h with h | ⟨c, h⟩
  · exact entriesVia_enqueue_self q s sb k r h
  · induction q with
    | nil => cases h
    | cons x q ih =>
      by_cases hm : x.sink = s ∧ x.sub = sb ∧ x.key = k
      · rw [entriesVia, if_pos hm] at h
        have hq : entriesVia q s sb k = [] := by
          have := congrArg List.tail h
          simpa using this
        rw [enqueue, if_pos hm, entriesVia, if_pos ⟨rfl, rfl, rfl⟩, hq]
      · rw [entriesVia, if_neg hm] at h
        rw [enqueue, if_neg (by
          intro hmm
          exact hm ⟨hmm.1, hmm.2.1, hmm.2.2⟩)]
        rw [entriesVia, if_neg hm]
        exact ih h

theorem entriesVia_enqueuePoint_hit (ss : List Nat) : ∀ (q : List PEntry)
    (k : Key) (r : Int) (s : Nat),
    (entriesVia q s (Sub.point k) k = [] ∨
      ∃ c, entriesVia q s (Sub.point k) k = [c]) →
    entriesVia (enqueuePoint q ss k r) s (Sub.point k) k
      = (if s ∈ ss then [r] else entriesVia q s (Sub.point k) k) := by
  induction ss with
  | nil => intro q k r s h; simp [enqueuePoint]
  | cons s0 ss ih =>
    intro q k r s h
    rw [enqueuePoint]
    by_cases hs : s0 = s
    · subst hs
      have h1 : entriesVia (enqueue q ⟨s0, Sub.point k, k, r⟩) s0
          (Sub.point k) k = [r] := entriesVia_enqueue_update q s0 _ k r h
      rw [ih _ k r s0 (Or.inr ⟨r, h1⟩)]
      by_cases hm : s0 ∈ ss
      · rw [if_pos hm, if_pos (List.mem_cons.2 (Or.inr hm))]
      · rw [if_neg hm, h1, if_pos (List.mem_cons_self _ _)]
    · have h1 : entriesVia (enqueue q ⟨s0, Sub.point k, k, r⟩) s
          (Sub.point k) k = entriesVia q s (Sub.point k) k := by
        apply entriesVia_enqueue_ne
        intro hm
        exact hs hm.1
      rw [ih _ k r s (by rw [h1]; exact h), h1]
      by_cases hm : s ∈ ss
      · rw [if_pos hm, if_pos (List.mem_cons.2 (Or.inr hm))]
      · rw [if_neg hm, if_neg]
        intro hmm
        rcases List.mem_cons.1 hmm with h2 | h2
        · exact hs h2.symm
        · exact hm h2

theorem entriesVia_purgeKey_other (q : List PEntry) (k' : Key) (s' s : Nat)
    (sb : Sub) (k : Key) (h : ¬(s' = s ∧ k' = k)) :
    entriesVia (purgeKey q k' s') s sb k = entriesVia q s sb k := by
  induction q with
  | nil => rfl
  | cons e q ih =>
    by_cases hp : e.sink = s' ∧ e.key = k'
    · have hm : ¬(e.sink = s ∧ e.sub = sb ∧ e.key = k) := by
        intro hmm
        exact h ⟨by rw [← hmm.1, hp.1], by rw [← hmm.2.2, hp.2]⟩
      rw [purgeKey, if_pos hp, ih, entriesVia, if_neg hm]
    · by_cases hm : e.sink = s ∧ e.sub = sb ∧ e.key = k
      · rw [purgeKey, if_neg hp, entriesVia, if_pos hm, entriesVia,
          if_pos hm, ih]
      · rw [purgeKey, if_neg hp, entriesVia, if_neg hm, entriesVia,
          if_neg hm, ih]

theorem entriesVia_nil_of_sink_ne (q : List PEntry) (s : Nat) (sb : Sub)
    (k : Key) (h : ∀ x ∈ q, x.sink ≠ s) : entriesVia q s sb k = [] := by
  induction q with
  | nil => rfl
  | cons e q ih =>
    have hm : ¬(e.sink = s ∧ e.sub = sb ∧ e.key = k) := by
      intro hmm
      exact h e (List.mem_cons_self _ _) hmm.1
    rw [entriesVia, if_neg hm]
    exact ih fun x hx => h x (List.mem_cons.2 (Or.inr hx))

theorem getLast?_append_one (l : List Int) (a : Int) :
    (l ++ [a]).getLast? = some a := by
  induction l with
  | nil => rfl
  | cons x l ih =>
    cases l with
    | nil => rfl
    | cons y l' =>
      rw [List.cons_append, List.cons_append, List.getLast?_cons_cons]
      rw [List.cons_append] at ih
      exact ih

theorem mem_of_getLast?_rev (l : List Int) (a : Int)
    (h : l.getLast? = some a) : a ∈ l := by
  induction l with
  | nil => cases h
  | cons x l ih =>
    cases l with
    | nil =>
      have hx : x = a := by simpa using h
      rw [hx]
      exact List.mem_cons_self _ _
    | cons y l' =>
      rw [List.getLast?_cons_cons] at h
      exact List.mem_cons.2 (Or.inr (ih h))

theorem KInv_applyEntry_ne (st : WState) (k : Key) (s : Nat) (C : List Int)
    (k' : Key) (r : Int) (hne : k' ≠ k) (hK : KInv st k s C) :
    KInv (applyEntry st k' r) k s C := by
  have hf := applyEntry_fields st k' r
  have hpend : entriesVia (applyEntry st k' r).pending s (Sub.point k) k
      = entriesVia st.pending s (Sub.point k) k := by
    by_cases hc : lookupRev st.current k' = some r
    · rw [applyEntry, if_pos hc]
    · have hp : (applyEntry st k' r).pending
          = enqueueColl (enqueuePoint st.pending (subsFor st.pointSubs k') k' r)
              (collsFor st.collSubs k'.coll) k' r := by
        rw [applyEntry, if_neg hc]
      rw [hp, entriesVia_enqueueColl_point,
        entriesVia_enqueuePoint_skip _ _ _ _ _ _ fun hk => absurd hk hne]
  have hcur : lookupRev (applyEntry st k' r).current k
      = lookupRev st.current k := by
    by_cases hc : lookupRev st.current k' = some r
    · rw [applyEntry, if_pos hc]
    · have hp : (applyEntry st k' r).current = setRev st.current k' r := by
        rw [applyEntry, if_neg hc]
      rw [hp, lookupRev_setRev_ne st.current k' k r hne]
  refine ⟨?_, ?_, ?_, ?_, ?_, ?_, ?_⟩
  · rw [hf.2.2.2.2]
    exact hK.mono
  · rw [hpend, hcur]
    exact hK.pend
  · rw [hcur]
    exact hK.cur
  · rw [hf.2.2.2.2]
    exact hK.delivMem
  · rw [hf.2.2.2.2, hpend]
    exact hK.delivLt
  · rw [hf.2.2.1, hpend]
    exact hK.nosub
  · rw [hf.2.1, hf.1]
    exact hK.cursorLe

theorem KInv_applyEntry_eq (st : WState) (k : Key) (s : Nat) (C : List Int)
    (r : Int) (hK : KInv st k s C)
    (hg : ∀ x ∈ C, x ≠ -1 → r ≠ -1 → x < r) :
    KInv (applyEntry st k r) k s (C ++ [r]) := by
  have hf := applyEntry_fields st k r
  by_cases hc : lookupRev st.current k = some r
  · have he : applyEntry st k r = st := by rw [applyEntry, if_pos hc]
    rw [he]
    refine ⟨hK.mono, hK.pend, ?_, ?_, hK.delivLt, hK.nosub, hK.cursorLe⟩
    · rw [hc, getLast?_append_one]
    · intro d hd hdne
      exact List.mem_append_left _ (hK.delivMem d hd hdne)
  · have hcur2 : (applyEntry st k r).current = setRev st.current k r := by
      rw [applyEntry, if_neg hc]
    have hpend2 : (applyEntry st k r).pending
        = enqueueColl (enqueuePoint st.pending (subsFor st.pointSubs k) k r)
            (collsFor st.collSubs k.coll) k r := by
      rw [applyEntry, if_neg hc]
    have hlk : lookupRev (applyEntry st k r).current k = some r := by
      rw [hcur2, lookupRev_setRev_self]
    have hP : entriesVia (applyEntry st k r).pending s (Sub.point k) k
        = (if s ∈ subsFor st.pointSubs k then [r]
           else entriesVia st.pending s (Sub.point k) k) := by
      rw [hpend2, entriesVia_enqueueColl_point, entriesVia_enqueuePoint_hit]
      rcases hK.pend with h | ⟨c, h, _⟩
      · exact Or.inl h
      · exact Or.inr ⟨c, h⟩
    refine ⟨?_, ?_, ?_, ?_, ?_, ?_, ?_⟩
    · rw [hf.2.2.2.2]
      exact hK.mono
    · by_cases hm : s ∈ subsFor st.pointSubs k
      · exact Or.inr ⟨r, by rw [hP, if_pos hm], hlk⟩
      · rw [hP, if_neg hm]
        rcases hK.pend with h | ⟨c, h, hcc⟩
        · exact Or.inl h
        · have hfp : hasPair st.pointSubs k s = false := by
            cases hhp : hasPair st.pointSubs k s
            · rfl
            · exact absurd ((mem_subsFor _ _ _).2 hhp) hm
          have hcontra := hK.nosub hfp
          rw [h] at hcontra
          cases hcontra
    · rw [hlk, getLast?_append_one]
    · intro d hd hdne
      rw [hf.2.2.2.2] at hd
      exact List.mem_append_left _ (hK.delivMem d hd hdne)
    · intro d hd p hp hdne hpne
      rw [hf.2.2.2.2] at hd
      rw [hP] at hp
      by_cases hm : s ∈ subsFor st.pointSubs k
      · rw [if_pos hm] at hp
        have hpr : p = r := List.mem_singleton.1 hp
        rw [hpr]
        rw [hpr] at hpne
        exact hg d (hK.delivMem d hd hdne) hdne hpne
      · rw [if_neg hm] at hp
        exact hK.delivLt d hd p hp hdne hpne
    · intro hfp
      rw [hf.2.2.1] at hfp
      have hm : ¬ s ∈ subsFor st.pointSubs k := by
        intro hmm
        have hb := (mem_subsFor _ _ _).1 hmm
        rw [hfp] at hb
        exact Bool.noConfusion hb
      rw [hP, if_neg hm]
      exact hK.nosub hfp
    · rw [hf.2.1, hf.1]
      exact hK.cursorLe

theorem KInv_applyRec (es : List (Key × Int)) : ∀ (st : WState) (k : Key)
    (s : Nat) (C T : List Int), KInv st k s C →
    MonoRevs (C ++ (recRevs es k ++ T)) →
    KInv (applyRec st es) k s (C ++ recRevs es k) := by
  induction es with
  | nil =>
    intro st k s C T hK _
    rw [show recRevs [] k = [] from rfl, List.append_nil]
    exact hK
  | cons p es ih =>
    intro st k s C T hK hM
    obtain ⟨k2, r⟩ := p
    by_cases hk : k2 = k
    · subst hk
      have hrr : recRevs ((k2, r) :: es) k2 = r :: recRevs es k2 := by
        rw [recRevs, if_pos rfl]
      have hg : ∀ x ∈ C, x ≠ -1 → r ≠ -1 → x < r := by
        have hsplit := (List.pairwise_append.1 hM).2.2
        intro x hx hxne hrne
        refine hsplit x hx r ?_ hxne hrne
        rw [hrr, List.cons_append]
        exact List.mem_cons_self _ _
      have hK' := KInv_applyEntry_eq st k2 s C r hK hg
      have hM' : MonoRevs ((C ++ [r]) ++ (recRevs es k2 ++ T)) := by
        have heq : (C ++ [r]) ++ (recRevs es k2 ++ T)
            = C ++ (recRevs ((k2, r) :: es) k2 ++ T) := by
          rw [hrr]
          simp [List.append_assoc]
        rw [heq]
        exact hM
      have hrun := ih (applyEntry st k2 r) k2 s (C ++ [r]) T hK' hM'
      rw [applyRec_cons, hrr]
      have heq : C ++ r :: recRevs es k2 = (C ++ [r]) ++ recRevs es k2 := by
        simp
      rw [heq]
      exact hrun
    · have hrr : recRevs ((k2, r) :: es) k = recRevs es k := by
        rw [recRevs, if_neg hk]
      have hK' := KInv_applyEntry_ne st k s C k2 r hk hK
      rw [applyRec_cons, hrr]
      refine ih (applyEntry st k2 r) k s C T hK' ?_
      rw [hrr] at hM
      exact hM

theorem watchStep_const (st : WState) (k' : Key) (known : Int) (s' : Nat) :
    (watchStep st k' known s').current = st.current ∧
    (watchStep st k' known s').log = st.log ∧
    (watchStep st k' known s').cursor = st.cursor := by
  by_cases h1 : hasPair st.pointSubs k' s' = true
  · simp [watchStep, h1]
  · cases hl : lookupRev st.current k' with
    | none => simp [watchStep, h1, hl]
    | some c =>
      by_cases h2 : known < c ∨ (c = -1 ∧ 0 ≤ known)
      · simp [watchStep, h1, hl, h2]
      · simp [watchStep, h1, hl, h2]

theorem watchCollStep_const (st : WState) (c' : String) (s' : Nat) :
    (watchCollStep st c' s').current = st.current ∧
    (watchCollStep st c' s').log = st.log ∧
    (watchCollStep st c' s').cursor = st.cursor := by
  by_cases h1 : hasColl st.collSubs c' s' = true
  · simp [watchCollStep, h1]
  · simp [watchCollStep, h1]

theorem KInv_applyRecs (rcs : List (List (Key × Int))) : ∀ (st : WState)
    (k : Key) (s : Nat) (C T : List Int), KInv st k s C →
    MonoRevs (C ++ (keyRevs rcs k ++ T)) →
    KInv (applyRecs st rcs) k s (C ++ keyRevs rcs k) := by
  induction rcs with
  | nil =>
    intro st k s C T hK _
    rw [show keyRevs [] k = [] from rfl, List.append_nil]
    exact hK
  | cons rc rcs ih =>
    intro st k s C T hK hM
    have hkr : keyRevs (rc :: rcs) k = recRevs rc k ++ keyRevs rcs k := rfl
    have hM1 : MonoRevs (C ++ (recRevs rc k ++ (keyRevs rcs k ++ T))) := by
      have heq : C ++ (recRevs rc k ++ (keyRevs rcs k ++ T))
          = C ++ (keyRevs (rc :: rcs) k ++ T) := by
        rw [hkr]
        simp [List.append_assoc]
      rw [heq]
      exact hM
    have hK1 := KInv_applyRec rc st k s C (keyRevs rcs k ++ T) hK hM1
    have hM2 : MonoRevs ((C ++ recRevs rc k) ++ (keyRevs rcs k ++ T)) := by
      have heq : (C ++ recRevs rc k) ++ (keyRevs rcs k ++ T)
          = C ++ (recRevs rc k ++ (keyRevs rcs k ++ T)) := by
        simp [List.append_assoc]
      rw [heq]
      exact hM1
    have hrun := ih (applyRec st rc) k s (C ++ recRevs rc k) T hK1 hM2
    rw [show applyRecs st (rc :: rcs) = applyRecs (applyRec st rc) rcs
      from rfl]
    rw [hkr]
    have heq : C ++ (recRevs rc k ++ keyRevs rcs k)
        = (C ++ recRevs rc k) ++ keyRevs rcs k := by
      simp [List.append_assoc]
    rw [heq]
    exact hrun

/-- Master induction for claim C1: the invariant `KInv` is preserved by
every event of a trace whose future commits stay admissible for key `k`
and which Watch-subscribes `(k, s)` at most once (not at all when the
subscription, a pending Change, or a past delivery for it already
exists); it entails that the revnos delivered via the point subscription
`(k, s)` satisfy invariant I4. -/
theorem KInv_run (tr : List Event) : ∀ (st : WState) (C : List Int)
    (k : Key) (s : Nat), KInv st k s C →
    MonoRevs (C ++ (keyRevs (st.log.drop st.cursor) k
      ++ keyRevs (commitsOf tr) k)) →
    countWatch tr k s ≤ 1 →
    (¬(hasPair st.pointSubs k s = false
        ∧ entriesVia st.delivered s (Sub.point k) k = []
        ∧ entriesVia st.pending s (Sub.point k) k = []) →
      countWatch tr k s = 0) →
    MonoRevs (entriesVia (runFrom st tr).delivered s (Sub.point k) k) := by
  induction tr with
  | nil =>
    intro st C k s hK _ _ _
    exact hK.mono
  | cons e tr ih =>
    intro st C k s hK hM hcnt hV
    cases e with
    | commit rc =>
      have hK' : KInv { st with log := st.log ++ [rc] } k s C :=
        ⟨hK.mono, hK.pend, hK.cur, hK.delivMem, hK.delivLt, hK.nosub, by
          show st.cursor ≤ (st.log ++ [rc]).length
          rw [List.length_append]
          exact le_trans hK.cursorLe (Nat.le_add_right _ _)⟩
      have hM' : MonoRevs (C
          ++ (keyRevs ((st.log ++ [rc]).drop st.cursor) k
            ++ keyRevs (commitsOf tr) k)) := by
        rw [List.drop_append_of_le_length hK.cursorLe, keyRevs_append]
        have heq : C ++ ((keyRevs (st.log.drop st.cursor) k ++ keyRevs [rc] k)
              ++ keyRevs (commitsOf tr) k)
            = C ++ (keyRevs (st.log.drop st.cursor) k
              ++ (keyRevs [rc] k ++ keyRevs (commitsOf tr) k)) := by
          simp [List.append_assoc]
        rw [heq]
        have heq2 : keyRevs [rc] k ++ keyRevs (commitsOf tr) k
            = keyRevs (commitsOf (Event.commit rc :: tr)) k := by
          show (recRevs rc k ++ []) ++ keyRevs (commitsOf tr) k
            = recRevs rc k ++ keyRevs (commitsOf tr) k
          simp
        rw [heq2]
        exact hM
      exact ih { st with log := st.log ++ [rc] } C k s hK' hM' hcnt hV
    | sync =>
      have hf := syncStep_fields st
      have hK1 := KInv_applyRecs (st.log.drop st.cursor) st k s C
        (keyRevs (commitsOf tr) k) hK hM
      have hK' : KInv (syncStep st) k s
          (C ++ keyRevs (st.log.drop st.cursor) k) := by
        refine ⟨hK1.mono, hK1.pend, hK1.cur, hK1.delivMem, hK1.delivLt,
          hK1.nosub, ?_⟩
        show st.log.length ≤ (syncStep st).log.length
        rw [hf.1]
      have hM' : MonoRevs ((C ++ keyRevs (st.log.drop st.cursor) k)
          ++ (keyRevs ((syncStep st).log.drop (syncStep st).cursor) k
            ++ keyRevs (commitsOf tr) k)) := by
        have hdrop : (syncStep st).log.drop (syncStep st).cursor = [] := by
          rw [hf.1, hf.2.1]
          exact List.drop_length _
        rw [hdrop]
        have heq : (C ++ keyRevs (st.log.drop st.cursor) k)
              ++ (keyRevs ([] : List (List (Key × Int))) k
                ++ keyRevs (commitsOf tr) k)
            = C ++ (keyRevs (st.log.drop st.cursor) k
              ++ keyRevs (commitsOf tr) k) := by
          show (C ++ keyRevs (st.log.drop st.cursor) k)
              ++ ([] ++ keyRevs (commitsOf tr) k) = _
          simp [List.append_assoc]
        rw [heq]
        exact hM
      refine ih (syncStep st) (C ++ keyRevs (st.log.drop st.cursor) k) k s
        hK' hM' hcnt ?_
      intro hnv
      apply hV
      intro hv
      apply hnv
      refine ⟨?_, ?_, ?_⟩
      · rw [hf.2.2.1]
        exact hv.1
      · rw [hf.2.2.2.2]
        exact hv.2.1
      · show entriesVia (syncStep st).pending s (Sub.point k) k = []
        have hx : entriesVia (applyRecs st (st.log.drop st.cursor)).pending s
            (Sub.point k) k = entriesVia st.pending s (Sub.point k) k :=
          pendVia_applyRecs_point _ st s k hv.1
        exact hx.trans hv.2.2
    | watch k' known s' =>
      by_cases hx : k' = k ∧ s' = s
      · obtain ⟨hk2, hs2⟩ := hx
        subst hk2
        subst hs2
        have hcw : countWatch tr k' s' = 0 := by
          have hb := hcnt
          simp [countWatch] at hb
          omega
        have hvst : hasPair st.pointSubs k' s' = false
            ∧ entriesVia st.delivered s' (Sub.point k') k' = []
            ∧ entriesVia st.pending s' (Sub.point k') k' = [] := by
          by_contra hnv
          have hb := hV hnv
          simp [countWatch] at hb
        have hwc := watchStep_const st k' known s'
        have hps1 : (watchStep st k' known s').pointSubs
            = st.pointSubs ++ [(k', s')] := by
          cases hl : lookupRev st.current k' with
          | none => simp [watchStep, hvst.1, hl]
          | some c =>
            by_cases h2 : known < c ∨ (c = -1 ∧ 0 ≤ known)
            · simp [watchStep, hvst.1, hl, h2]
            · simp [watchStep, hvst.1, hl, h2]
        have hpd : (watchStep st k' known s').pending = st.pending ∨
            ∃ c, lookupRev st.current k' = some c ∧
              (watchStep st k' known s').pending
                = enqueue st.pending ⟨s', Sub.point k', k', c⟩ := by
          cases hl : lookupRev st.current k' with
          | none =>
            left
            simp [watchStep, hvst.1, hl]
          | some c =>
            by_cases h2 : known < c ∨ (c = -1 ∧ 0 ≤ known)
            · right
              exact ⟨c, rfl, by simp [watchStep, hvst.1, hl, h2]⟩
            · left
              simp [watchStep, hvst.1, hl, h2]
        have hdel : (watchStep st k' known s').delivered = st.delivered :=
          (watchStep_cases st k' known s').1
        have hK' : KInv (watchStep st k' known s') k' s' C := by
          refine ⟨?_, ?_, ?_, ?_, ?_, ?_, ?_⟩
          · rw [hdel]
            exact hK.mono
          · rcases hpd with h | ⟨c, hl, h⟩
            · rw [h, hwc.1]
              exact hK.pend
            · right
              refine ⟨c, ?_, ?_⟩
              · rw [h]
                exact entriesVia_enqueue_update st.pending s' (Sub.point k')
                  k' c (Or.inl hvst.2.2)
              · rw [hwc.1]
                exact hl
          · rw [hwc.1]
            exact hK.cur
          · rw [hdel]
            exact hK.delivMem
          · intro d hd p hp hdne hpne
            rw [hdel, hvst.2.1] at hd
            cases hd
          · intro hfp
            rw [hps1, hasPair_append_one] at hfp
            simp at hfp
          · rw [hwc.2.2, hwc.2.1]
            exact hK.cursorLe
        have hM' : MonoRevs (C
            ++ (keyRevs ((watchStep st k' known s').log.drop
                (watchStep st k' known s').cursor) k'
              ++ keyRevs (commitsOf tr) k')) := by
          rw [hwc.2.1, hwc.2.2]
          exact hM
        refine ih (watchStep st k' known s') C k' s' hK' hM' (by omega) ?_
        intro _
        exact hcw
      · have hw := watchStep_cases st k' known s'
        have hwc := watchStep_const st k' known s'
        have hcnt' : countWatch (Event.watch k' known s' :: tr) k s
            = countWatch tr k s := by
          simp [countWatch, hx]
        have hPeq : entriesVia (watchStep st k' known s').pending s
            (Sub.point k) k = entriesVia st.pending s (Sub.point k) k := by
          rcases hw.2.2.2 with h | ⟨c, h⟩
          · rw [h]
          · rw [h]
            apply entriesVia_enqueue_ne
            intro hm
            have hkk : k' = k := by injection hm.2.1
            exact hx ⟨hkk, hm.1⟩
        have hPS : hasPair (watchStep st k' known s').pointSubs k s
            = hasPair st.pointSubs k s := by
          rcases hw.2.2.1 with h | h
          · rw [h]
          · rw [h, hasPair_append_one]
            simp [hx]
        have hK' : KInv (watchStep st k' known s') k s C := by
          refine ⟨?_, ?_, ?_, ?_, ?_, ?_, ?_⟩
          · rw [hw.1]
            exact hK.mono
          · rw [hPeq, hwc.1]
            exact hK.pend
          · rw [hwc.1]
            exact hK.cur
          · rw [hw.1]
            exact hK.delivMem
          · rw [hw.1, hPeq]
            exact hK.delivLt
          · rw [hPS, hPeq]
            exact hK.nosub
          · rw [hwc.2.2, hwc.2.1]
            exact hK.cursorLe
        have hM' : MonoRevs (C
            ++ (keyRevs ((watchStep st k' known s').log.drop
                (watchStep st k' known s').cursor) k
              ++ keyRevs (commitsOf tr) k)) := by
          rw [hwc.2.1, hwc.2.2]
          exact hM
        refine ih (watchStep st k' known s') C k s hK' hM'
          (by rw [← hcnt']; exact hcnt) ?_
        intro hnv
        rw [← hcnt']
        apply hV
        intro hv
        apply hnv
        exact ⟨by rw [hPS]; exact hv.1, by rw [hw.1]; exact hv.2.1,
          by rw [hPeq]; exact hv.2.2⟩
    | unwatch k' s' =>
      by_cases hx : k' = k ∧ s' = s
      · obtain ⟨hk2, hs2⟩ := hx
        subst hk2
        subst hs2
        have hP' : entriesVia (purgeKey st.pending k' s') s' (Sub.point k')
            k' = [] := entriesVia_purgeKey_self _ _ _ _
        have hK' : KInv (unwatchStep st k' s') k' s' C := by
          refine ⟨hK.mono, Or.inl hP', hK.cur, hK.delivMem, ?_,
            fun _ => hP', hK.cursorLe⟩
          intro d hd p hp hdne hpne
          have hpp : p ∈ entriesVia (purgeKey st.pending k' s') s'
              (Sub.point k') k' := hp
          rw [hP'] at hpp
          cases hpp
        refine ih (unwatchStep st k' s') C k' s' hK' hM hcnt ?_
        intro hnv
        apply hV
        intro hv
        apply hnv
        refine ⟨?_, hv.2.1, ?_⟩
        · show hasPair (removePair st.pointSubs k' s') k' s' = false
          exact hasPair_removePair_self _ _ _
        · exact hP'
      · have hP' : entriesVia (purgeKey st.pending k' s') s (Sub.point k) k
            = entriesVia st.pending s (Sub.point k) k :=
          entriesVia_purgeKey_other _ _ _ _ _ _
            fun hh => hx ⟨hh.2, hh.1⟩
        have hHP : hasPair (removePair st.pointSubs k' s') k s
            = hasPair st.pointSubs k s :=
          hasPair_removePair_ne _ _ _ _ _
            fun hh => hx ⟨hh.1.symm, hh.2.symm⟩
        have hK' : KInv (unwatchStep st k' s') k s C := by
          refine ⟨hK.mono, ?_, hK.cur, hK.delivMem, ?_, ?_, hK.cursorLe⟩
          · show entriesVia (purgeKey st.pending k' s') s (Sub.point k) k
                = [] ∨ ∃ c, entriesVia (purgeKey st.pending k' s') s
                (Sub.point k) k = [c] ∧ lookupRev st.current k = some c
            rw [hP']
            exact hK.pend
          · intro d hd p hp hdne hpne
            have hpp : p ∈ entriesVia (purgeKey st.pending k' s') s
                (Sub.point k) k := hp
            rw [hP'] at hpp
            exact hK.delivLt d hd p hpp hdne hpne
          · intro hfp
            have hfp2 : hasPair st.pointSubs k s = false := by
              rw [← hHP]
              exact hfp
            show entriesVia (purgeKey st.pending k' s') s (Sub.point k) k = []
            rw [hP']
            exact hK.nosub hfp2
        refine ih (unwatchStep st k' s') C k s hK' hM hcnt ?_
        intro hnv
        apply hV
        intro hv
        apply hnv
        refine ⟨?_, hv.2.1, ?_⟩
        · show hasPair (removePair st.pointSubs k' s') k s = false
          rw [hHP]
          exact hv.1
        · show entriesVia (purgeKey st.pending k' s') s (Sub.point k) k = []
          rw [hP']
          exact hv.2.2
    | watchColl c' s' =>
      obtain ⟨hd, hps, hpd, hcs⟩ := watchCollStep_cases st c' s'
      have hwc := watchCollStep_const st c' s'
      have hK' : KInv (watchCollStep st c' s') k s C := by
        refine ⟨?_, ?_, ?_, ?_, ?_, ?_, ?_⟩
        · rw [hd]
          exact hK.mono
        · rw [hpd, hwc.1]
          exact hK.pend
        · rw [hwc.1]
          exact hK.cur
        · rw [hd]
          exact hK.delivMem
        · rw [hd, hpd]
          exact hK.delivLt
        · rw [hps, hpd]
          exact hK.nosub
        · rw [hwc.2.2, hwc.2.1]
          exact hK.cursorLe
      have hM' : MonoRevs (C
          ++ (keyRevs ((watchCollStep st c' s').log.drop
              (watchCollStep st c' s').cursor) k
            ++ keyRevs (commitsOf tr) k)) := by
        rw [hwc.2.1, hwc.2.2]
        exact hM
      refine ih (watchCollStep st c' s') C k s hK' hM' hcnt ?_
      intro hnv
      apply hV
      intro hv
      apply hnv
      exact ⟨by rw [hps]; exact hv.1, by rw [hd]; exact hv.2.1,
        by rw [hpd]; exact hv.2.2⟩
    | unwatchColl c' s' =>
      by_cases hx : s' = s ∧ k.coll = c'
      · have hP' : entriesVia (purgeColl st.pending c' s') s (Sub.point k) k
            = [] := by
          rw [hx.1]
          exact entriesVia_purgeColl_self _ _ _ _ _ hx.2
        have hK' : KInv (unwatchCollStep st c' s') k s C := by
          refine ⟨hK.mono, Or.inl hP', hK.cur, hK.delivMem, ?_,
            fun _ => hP', hK.cursorLe⟩
          intro d hd p hp hdne hpne
          have hpp : p ∈ entriesVia (purgeColl st.pending c' s') s
              (Sub.point k) k := hp
          rw [hP'] at hpp
          cases hpp
        refine ih (unwatchCollStep st c' s') C k s hK' hM hcnt ?_
        intro hnv
        apply hV
        intro hv
        apply hnv
        exact ⟨hv.1, hv.2.1, hP'⟩
      · have hP' : entriesVia (purgeColl st.pending c' s') s (Sub.point k) k
            = entriesVia st.pending s (Sub.point k) k :=
          entriesVia_purgeColl_ne _ _ _ _ _ _
            fun hh => hx ⟨hh.1.symm, hh.2⟩
        have hK' : KInv (unwatchCollStep st c' s') k s C := by
          refine ⟨hK.mono, ?_, hK.cur, hK.delivMem, ?_, ?_, hK.cursorLe⟩
          · show entriesVia (purgeColl st.pending c' s') s (Sub.point k) k
                = [] ∨ ∃ c, entriesVia (purgeColl st.pending c' s') s
                (Sub.point k) k = [c] ∧ lookupRev st.current k = some c
            rw [hP']
            exact hK.pend
          · intro d hd p hp hdne hpne
            have hpp : p ∈ entriesVia (purgeColl st.pending c' s') s
                (Sub.point k) k := hp
            rw [hP'] at hpp
            exact hK.delivLt d hd p hpp hdne hpne
          · intro hfp
            show entriesVia (purgeColl st.pending c' s') s (Sub.point k) k = []
            rw [hP']
            exact hK.nosub hfp
        refine ih (unwatchCollStep st c' s') C k s hK' hM hcnt ?_
        intro hnv
        apply hV
        intro hv
        apply hnv
        refine ⟨hv.1, hv.2.1, ?_⟩
        show entriesVia (purgeColl st.pending c' s') s (Sub.point k) k = []
        rw [hP']
        exact hv.2.2
    | deliver s' =>
      cases hp : popFor st.pending s' with
      | none =>
        have hds : deliverStep st s' = st := by rw [deliverStep, hp]
        rw [show runFrom st (Event.deliver s' :: tr)
            = runFrom (deliverStep st s') tr from rfl, hds]
        exact ih st C k s hK hM hcnt hV
      | some pq =>
        obtain ⟨e, q⟩ := pq
        obtain ⟨q1, q2, hq, hq', hnf, hes⟩ := popFor_split st.pending s' e q hp
        have hds : deliverStep st s'
            = { st with pending := q, delivered := st.delivered ++ [e] } := by
          rw [deliverStep, hp]
        by_cases hm : e.sink = s ∧ e.sub = Sub.point k ∧ e.key = k
        · have hss : s' = s := by rw [← hes, hm.1]
          have hnf' : ∀ x ∈ q1, x.sink ≠ s := by
            intro x hxx
            rw [← hss]
            exact hnf x hxx
          have hq1nil : entriesVia q1 s (Sub.point k) k = [] :=
            entriesVia_nil_of_sink_ne q1 s _ _ hnf'
          have hPdecomp : entriesVia st.pending s (Sub.point k) k
              = e.revno :: entriesVia q2 s (Sub.point k) k := by
            rw [hq, entriesVia_append, hq1nil, List.nil_append, entriesVia,
              if_pos hm]
          have hPc : entriesVia st.pending s (Sub.point k) k = [e.revno]
              ∧ lookupRev st.current k = some e.revno := by
            rcases hK.pend with h | ⟨c, h, hcc⟩
            · rw [h] at hPdecomp
              cases hPdecomp
            · rw [h] at hPdecomp
              have hce : c = e.revno ∧ ([] : List Int)
                  = entriesVia q2 s (Sub.point k) k := by
                injection hPdecomp with ha hb
                exact ⟨ha, hb⟩
              refine ⟨by rw [h, hce.1], by rw [← hce.1]; exact hcc⟩
          have hq2nil : entriesVia q2 s (Sub.point k) k = [] := by
            have hb : e.revno :: entriesVia q2 s (Sub.point k) k
                = [e.revno] := hPdecomp.symm.trans hPc.1
            simpa using hb
          have hP' : entriesVia q s (Sub.point k) k = [] := by
            rw [hq', entriesVia_append, hq1nil, hq2nil]
            rfl
          have hD' : entriesVia (st.delivered ++ [e]) s (Sub.point k) k
              = entriesVia st.delivered s (Sub.point k) k ++ [e.revno] := by
            rw [entriesVia_append_one, if_pos hm]
          have hK' : KInv { st with pending := q, delivered := st.delivered ++ [e] } k s C := by
            refine ⟨?_, Or.inl hP', hK.cur, ?_, ?_, fun _ => hP',
              hK.cursorLe⟩
            · show MonoRevs (entriesVia (st.delivered ++ [e]) s
                (Sub.point k) k)
              rw [hD']
              refine List.pairwise_append.2 ⟨hK.mono,
                List.pairwise_singleton _ _, ?_⟩
              intro d hd y hy
              have hye : y = e.revno := List.mem_singleton.1 hy
              rw [hye]
              intro hdne hyne
              exact hK.delivLt d hd e.revno
                (by rw [hPc.1]; exact List.mem_cons_self _ _) hdne hyne
            · intro d hd hdne
              have hdd : d ∈ entriesVia (st.delivered ++ [e]) s
                  (Sub.point k) k := hd
              rw [hD'] at hdd
              rcases List.mem_append.1 hdd with h1 | h1
              · exact hK.delivMem d h1 hdne
              · have hde : d = e.revno := List.mem_singleton.1 h1
                rw [hde]
                have hgl : C.getLast? = some e.revno := by
                  rw [← hK.cur]
                  exact hPc.2
                exact mem_of_getLast?_rev C e.revno hgl
            · intro d hd p hpp hdne hpne
              have hpq : p ∈ entriesVia q s (Sub.point k) k := hpp
              rw [hP'] at hpq
              cases hpq
          rw [show runFrom st (Event.deliver s' :: tr)
              = runFrom (deliverStep st s') tr from rfl, hds]
          refine ih { st with pending := q, delivered := st.delivered ++ [e] } C k s hK' hM hcnt ?_
          intro _
          apply hV
          intro hv
          have hbad := hv.2.2
          rw [hPc.1] at hbad
          cases hbad
        · have h2 : entriesVia (e :: q2) s (Sub.point k) k
              = entriesVia q2 s (Sub.point k) k := by
            rw [entriesVia, if_neg hm]
          have hPeq : entriesVia q s (Sub.point k) k
              = entriesVia st.pending s (Sub.point k) k := by
            rw [hq', hq, entriesVia_append, entriesVia_append, h2]
          have hDeq : entriesVia (st.delivered ++ [e]) s (Sub.point k) k
              = entriesVia st.delivered s (Sub.point k) k := by
            rw [entriesVia_append_one, if_neg hm]
            simp
          have hK' : KInv { st with pending := q, delivered := st.delivered ++ [e] } k s C := by
            refine ⟨?_, ?_, hK.cur, ?_, ?_, ?_, hK.cursorLe⟩
            · show MonoRevs (entriesVia (st.delivered ++ [e]) s
                (Sub.point k) k)
              rw [hDeq]
              exact hK.mono
            · show entriesVia q s (Sub.point k) k = []
                ∨ ∃ c, entriesVia q s (Sub.point k) k = [c]
                  ∧ lookupRev st.current k = some c
              rw [hPeq]
              exact hK.pend
            · show ∀ d ∈ entriesVia (st.delivered ++ [e]) s (Sub.point k) k,
                d ≠ -1 → d ∈ C
              rw [hDeq]
              exact hK.delivMem
            · show ∀ d ∈ entriesVia (st.delivered ++ [e]) s (Sub.point k) k,
                ∀ p ∈ entriesVia q s (Sub.point k) k,
                  d ≠ -1 → p ≠ -1 → d < p
              rw [hDeq, hPeq]
              exact hK.delivLt
            · show hasPair st.pointSubs k s = false →
                entriesVia q s (Sub.point k) k = []
              rw [hPeq]
              exact hK.nosub
          rw [show runFrom st (Event.deliver s' :: tr)
              = runFrom (deliverStep st s') tr from rfl, hds]
          refine ih { st with pending := q, delivered := st.delivered ++ [e] } C k s hK' hM hcnt ?_
          intro hnv
          apply hV
          intro hv
          apply hnv
          refine ⟨hv.1, ?_, ?_⟩
          · show entriesVia (st.delivered ++ [e]) s (Sub.point k) k = []
            rw [hDeq]
            exact hv.2.1
          · show entriesVia q s (Sub.point k) k = []
            rw [hPeq]
            exact hv.2.2

/-! ### Claim C1 -/

/-- Counterexample to claim C1 as stated: sink 0 subscribes to key
`("c", "a")` both via a point subscription and via a collection
subscription on `"c"`; one insert at revno 5 is then delivered twice on
that sink for that key — `[5, 5]` — which is not strictly increasing and
involves no removal, so the per-sink-per-key sequence of the claim is
not strictly increasing. -/
theorem sinkKeyRevnosMayRepeat :
    delivOn (runTrace [] [Event.watch ⟨"c", "a"⟩ (-1) 0,
        Event.watchColl "c" 0, Event.commit [(⟨"c", "a"⟩, 5)], Event.sync,
        Event.deliver 0, Event.deliver 0]) 0 ⟨"c", "a"⟩ = [5, 5] ∧
    ¬ MonoRevs (delivOn (runTrace [] [Event.watch ⟨"c", "a"⟩ (-1) 0,
        Event.watchColl "c" 0, Event.commit [(⟨"c", "a"⟩, 5)], Event.sync,
        Event.deliver 0, Event.deliver 0]) 0 ⟨"c", "a"⟩) := by decide

/-- Claim C1 (corrected): for every sink, key, and single point
subscription — each `(key, sink)` pair Watch-subscribed at most once in
the trace — provided the committed revnos of the key are admissible
(every non-(-1) revno strictly above all earlier non-(-1) revnos of that
key, as the transaction runner guarantees), the sequence of revnos
delivered via that subscription has its non-(-1) values strictly
increasing, with -1 interleaving only on removals; so after a remove is
delivered as -1, a re-insert is delivered with a revno strictly greater
than every revno previously delivered via the subscription.  Deliveries
reaching the same sink for the same key through a second subscription
(see the counterexample) or through a re-subscription may repeat
revnos. -/
theorem monotonicPerPointSubscription (pre : List (List (Key × Int)))
    (tr : List Event) (k : Key) (s : Nat)
    (Hadm : MonoRevs (keyRevs (commitsOf tr) k))
    (Hw : countWatch tr k s ≤ 1) :
    MonoRevs (delivVia (runTrace pre tr) s (Sub.point k) k) := by
  apply KInv_run tr (initState pre) [] k s
  · exact ⟨List.Pairwise.nil, Or.inl rfl, rfl,
      (by intro d hd hdne; cases hd),
      (by intro d hd p hp h1 h2; cases hd),
      fun _ => rfl, le_refl _⟩
  · show MonoRevs ([] ++ (keyRevs (pre.drop pre.length) k
      ++ keyRevs (commitsOf tr) k))
    rw [List.drop_length]
    simpa using Hadm
  · exact Hw
  · intro h
    exact absurd ⟨rfl, rfl, rfl⟩ h

/-- Witness for C1 (amended): a key inserted at revno 1 before the
watcher starts, then watched and taken through revno 2, removal, and
re-insert at revno 7: the revnos delivered via the point subscription
are strictly increasing with -1 interleaved at the removal. -/
theorem monotonicPerPointSubscriptionWitness :
    MonoRevs (keyRevs (commitsOf [Event.watch ⟨"c", "a"⟩ (-1) 0,
      Event.commit [(⟨"c", "a"⟩, 2)], Event.sync, Event.deliver 0,
      Event.commit [(⟨"c", "a"⟩, -1)], Event.sync, Event.deliver 0,
      Event.commit [(⟨"c", "a"⟩, 7)], Event.sync, Event.deliver 0])
      ⟨"c", "a"⟩) ∧
    countWatch [Event.watch ⟨"c", "a"⟩ (-1) 0,
      Event.commit [(⟨"c", "a"⟩, 2)], Event.sync, Event.deliver 0,
      Event.commit [(⟨"c", "a"⟩, -1)], Event.sync, Event.deliver 0,
      Event.commit [(⟨"c", "a"⟩, 7)], Event.sync, Event.deliver 0]
      ⟨"c", "a"⟩ 0 ≤ 1 ∧
    MonoRevs (delivVia (runTrace [[(⟨"c", "a"⟩, 1)]]
      [Event.watch ⟨"c", "a"⟩ (-1) 0,
      Event.commit [(⟨"c", "a"⟩, 2)], Event.sync, Event.deliver 0,
      Event.commit [(⟨"c", "a"⟩, -1)], Event.sync, Event.deliver 0,
      Event.commit [(⟨"c", "a"⟩, 7)], Event.sync, Event.deliver 0]) 0
      (Sub.point ⟨"c", "a"⟩) ⟨"c", "a"⟩) :=
  ⟨by decide, by decide,
   monotonicPerPointSubscription [[(⟨"c", "a"⟩, 1)]]
     [Event.watch ⟨"c", "a"⟩ (-1) 0,
      Event.commit [(⟨"c", "a"⟩, 2)], Event.sync, Event.deliver 0,
      Event.commit [(⟨"c", "a"⟩, -1)], Event.sync, Event.deliver 0,
      Event.commit [(⟨"c", "a"⟩, 7)], Event.sync, Event.deliver 0]
     ⟨"c", "a"⟩ 0 (by decide) (by decide)⟩

end Watcher
